import Mathlib

/-!
A shallow embedding of the `cachex` caching layer of the GinPro repository
(`middleware/cache`): the bounded local cache with pluggable LRU/LFU eviction
policies (`local_cache.go`), the Redis adapter (`redis_cache.go`), the
two-level composition (`compose_cache.go`) and the multi-level orchestrator
(`multi_level_cache.go`), together with proofs of capacity, eviction-order,
frequency, error-handling and health-flag properties.

Go maps are embedded as association lists (`List (K × V)`) with the helpers
`lookupA` (map read), `putA` (map assignment) and `eraseA` (map delete);
`container/list` doubly linked lists are embedded as `List`s whose head is the
front of the linked list.  Fallible Go results `(T, error)` are embedded as
pairs with an `Option` error or as `Except`.
-/

set_option linter.unusedVariables false

/-! ### Association-list model of Go maps -/

/-- Map read `m[k]`: the value stored at the first occurrence of key `k`. -/
def lookupA {K V : Type} [DecidableEq K] : List (K × V) → K → Option V
  | [], _ => none
  | (k', v) :: rest, k => if k' = k then some v else lookupA rest k

/-- Map delete `delete(m, k)`: drop every binding of key `k`. -/
def eraseA {K V : Type} [DecidableEq K] : List (K × V) → K → List (K × V)
  | [], _ => []
  | (k', v) :: rest, k => if k' = k then eraseA rest k else (k', v) :: eraseA rest k

/-- Map assignment `m[k] = v`. -/
def putA {K V : Type} [DecidableEq K] (m : List (K × V)) (k : K) (v : V) : List (K × V) :=
  (k, v) :: eraseA m k

/-! ### Keyed lists: the `container/list` element operations used by the policies.
`eraseK f l k` removes the one list element whose key is `k` (Go `l.Remove(elem)`
where `elem` is found through the `elements` map); `findK` retrieves it. -/

/-- Remove the first element with key `k` (the unique one, in every reachable state). -/
def eraseK {A K : Type} [DecidableEq K] (f : A → K) : List A → K → List A
  | [], _ => []
  | a :: rest, k => if f a = k then rest else a :: eraseK f rest k

/-- Find the first element with key `k`. -/
def findK {A K : Type} [DecidableEq K] (f : A → K) : List A → K → Option A
  | [], _ => none
  | a :: rest, k => if f a = k then some a else findK f rest k

/-- Membership test by key (the `_, exists := p.elements[key]` check). -/
def hasK {A K : Type} [DecidableEq K] (f : A → K) (l : List A) (k : K) : Bool :=
  (findK f l k).isSome

/-! ### LRU eviction policy (`lruPolicy` in `local_cache.go`) -/

/-- `lruItem`: one linked-list node payload of the LRU policy. -/
structure lruItem (K T : Type) where
  key : K
  value : T
deriving DecidableEq, Repr

/-- `lruPolicy`: recency list (`ll`, head = most recently used) plus capacity.
The `elements` map of the source is membership of `ll` by key: the source keeps
the two in lockstep (every `PushFront`/`Remove` is paired with a map update). -/
structure lruPolicy (K T : Type) where
  capacity : Nat
  ll : List (lruItem K T)
deriving DecidableEq, Repr

/-- `newLRUPolicy`. -/
def newLRUPolicy (K T : Type) (capacity : Nat) : lruPolicy K T :=
  { capacity := capacity, ll := [] }

/-- `lruPolicy.Add`: move-to-front and update on an existing key, push-front otherwise. -/
def lruPolicy.Add {K T : Type} [DecidableEq K] (p : lruPolicy K T) (k : K) (v : T) :
    lruPolicy K T :=
  if hasK lruItem.key p.ll k then
    { p with ll := ⟨k, v⟩ :: eraseK lruItem.key p.ll k }
  else
    { p with ll := ⟨k, v⟩ :: p.ll }

/-- `lruPolicy.Access`: move-to-front when tracked, no-op otherwise. -/
def lruPolicy.Access {K T : Type} [DecidableEq K] (p : lruPolicy K T) (k : K) :
    lruPolicy K T :=
  match findK lruItem.key p.ll k with
  | some it => { p with ll := it :: eraseK lruItem.key p.ll k }
  | none => p

/-- `lruPolicy.Evict`: remove and return the back (least recently used) element. -/
def lruPolicy.Evict {K T : Type} (p : lruPolicy K T) : lruPolicy K T × Option K :=
  match p.ll.getLast? with
  | none => (p, none)
  | some oldest => ({ p with ll := p.ll.dropLast }, some oldest.key)

/-- `lruPolicy.Remove`: drop the element with key `k` when present. -/
def lruPolicy.Remove {K T : Type} [DecidableEq K] (p : lruPolicy K T) (k : K) :
    lruPolicy K T :=
  { p with ll := eraseK lruItem.key p.ll k }

/-! ### LFU eviction policy (`lfuPolicy` in `local_cache.go`) -/

/-- `lfuItem`: one linked-list node payload of the LFU policy. -/
structure lfuItem (K T : Type) where
  key : K
  value : T
  frequency : Nat
deriving DecidableEq, Repr

/-- `lfuPolicy`: current minimum frequency, the `elements` map from key to the
item held by that key's list element, and the map from frequency to its bucket
(head = most recently touched at that frequency).  A frequency absent from
`freqMap` is the source's `nil` bucket, which every use treats like an empty one. -/
structure lfuPolicy (K T : Type) where
  minFreq : Nat
  elements : List (K × lfuItem K T)
  freqMap : List (Nat × List (lfuItem K T))
deriving DecidableEq, Repr

/-- `newLFUPolicy`: `minFreq` starts at Go's zero value `0`. -/
def newLFUPolicy (K T : Type) : lfuPolicy K T :=
  { minFreq := 0, elements := [], freqMap := [] }

/-- The bucket `p.freqMap[f]`, with the `nil` bucket read as empty. -/
def bucketOf {K T : Type} (p : lfuPolicy K T) (f : Nat) : List (lfuItem K T) :=
  (lookupA p.freqMap f).getD []

/-- `lfuPolicy.increment`: move `item`'s element from its current frequency
bucket to the head of the next one, deleting the old bucket if it empties and
advancing `minFreq` when the emptied bucket was the minimum. -/
def lfuPolicy.increment {K T : Type} [DecidableEq K] (p : lfuPolicy K T)
    (item : lfuItem K T) : lfuPolicy K T :=
  let oldList := bucketOf p item.frequency
  let oldList' := eraseK lfuItem.key oldList item.key
  let fm1 := if oldList'.isEmpty then eraseA p.freqMap item.frequency
             else putA p.freqMap item.frequency oldList'
  let min1 := if oldList'.isEmpty then
                (if p.minFreq = item.frequency then p.minFreq + 1 else p.minFreq)
              else p.minFreq
  let item' : lfuItem K T := { item with frequency := item.frequency + 1 }
  let newList := (lookupA fm1 item'.frequency).getD []
  { minFreq := min1
    elements := putA p.elements item'.key item'
    freqMap := putA fm1 item'.frequency (item' :: newList) }

/-- `lfuPolicy.Add`: update-and-increment on an existing key; otherwise a fresh
item at frequency `1`, pushed at the head of bucket `1`, resetting `minFreq`. -/
def lfuPolicy.Add {K T : Type} [DecidableEq K] (p : lfuPolicy K T) (k : K) (v : T) :
    lfuPolicy K T :=
  match lookupA p.elements k with
  | some item => p.increment { item with value := v }
  | none =>
      let newItem : lfuItem K T := ⟨k, v, 1⟩
      { minFreq := 1
        elements := putA p.elements k newItem
        freqMap := putA p.freqMap 1 (newItem :: bucketOf p 1) }

/-- `lfuPolicy.Access`: increment the tracked item's frequency, no-op if untracked. -/
def lfuPolicy.Access {K T : Type} [DecidableEq K] (p : lfuPolicy K T) (k : K) :
    lfuPolicy K T :=
  match lookupA p.elements k with
  | some item => p.increment item
  | none => p

/-- `lfuPolicy.Evict`: remove the back element of the bucket at `minFreq`
(deleting the bucket if it empties, without touching `minFreq`). -/
def lfuPolicy.Evict {K T : Type} [DecidableEq K] (p : lfuPolicy K T) :
    lfuPolicy K T × Option K :=
  let minList := bucketOf p p.minFreq
  match minList.getLast? with
  | none => (p, none)
  | some back =>
      let minList' := minList.dropLast
      let fm := if minList'.isEmpty then eraseA p.freqMap p.minFreq
                else putA p.freqMap p.minFreq minList'
      ({ minFreq := p.minFreq, elements := eraseA p.elements back.key, freqMap := fm },
       some back.key)

/-- `lfuPolicy.Remove`: drop a tracked key from its frequency bucket,
deleting the bucket if it empties. -/
def lfuPolicy.Remove {K T : Type} [DecidableEq K] (p : lfuPolicy K T) (k : K) :
    lfuPolicy K T :=
  match lookupA p.elements k with
  | none => p
  | some item =>
      let b := bucketOf p item.frequency
      let b' := eraseK lfuItem.key b k
      let fm := if b'.isEmpty then eraseA p.freqMap item.frequency
                else putA p.freqMap item.frequency b'
      { minFreq := p.minFreq, elements := eraseA p.elements k, freqMap := fm }

/-! ### LocalCache (`local_cache.go`) -/

/-- The `EvictionPolicy[K, T]` interface: a record of the four operations over a
policy state type `S` (dynamic dispatch in the source). -/
structure EvictionPolicy (K T S : Type) where
  add : S → K → T → S
  access : S → K → S
  evict : S → S × Option K
  remove : S → K → S

/-- The LRU policy as an `EvictionPolicy` instance. -/
def lruEvictionPolicy (K T : Type) [DecidableEq K] :
    EvictionPolicy K T (lruPolicy K T) :=
  { add := lruPolicy.Add, access := lruPolicy.Access
    evict := lruPolicy.Evict, remove := lruPolicy.Remove }

/-- The LFU policy as an `EvictionPolicy` instance. -/
def lfuEvictionPolicy (K T : Type) [DecidableEq K] :
    EvictionPolicy K T (lfuPolicy K T) :=
  { add := lfuPolicy.Add, access := lfuPolicy.Access
    evict := lfuPolicy.Evict, remove := lfuPolicy.Remove }

/-- `LocalCache`: the value store plus the policy state and the capacity. -/
structure LocalCache (K T S : Type) where
  store : List (K × T)
  policyState : S
  capacity : Nat
deriving DecidableEq, Repr

/-- Capacity normalisation of `NewLocalCache`: a non-positive capacity is
replaced by the default `1000`. -/
def normCapacity (capacity : Int) : Nat :=
  if capacity ≤ 0 then 1000 else capacity.toNat

/-- `NewLocalCache(capacity, LRU)`. -/
def newLocalCacheLRU (K T : Type) (capacity : Int) : LocalCache K T (lruPolicy K T) :=
  { store := [], policyState := newLRUPolicy K T (normCapacity capacity)
    capacity := normCapacity capacity }

/-- `NewLocalCache(capacity, LFU)`. -/
def newLocalCacheLFU (K T : Type) (capacity : Int) : LocalCache K T (lfuPolicy K T) :=
  { store := [], policyState := newLFUPolicy K T, capacity := normCapacity capacity }

/-- `LocalCache.Get`: the value (`none` is the `ErrKeyNotExist` return) and the
cache after the policy has recorded the access. -/
def LocalCache.Get {K T S : Type} [DecidableEq K] (P : EvictionPolicy K T S)
    (c : LocalCache K T S) (k : K) : Option T × LocalCache K T S :=
  match lookupA c.store k with
  | some v => (some v, { c with policyState := P.access c.policyState k })
  | none => (none, c)

/-- `LocalCache.Set`, instrumented to report the key the eviction check removed
from the store (`none` when no eviction happened).  The source's `Set` is this
function's first component; its `error` return is always `nil`. -/
def LocalCache.SetEv {K T S : Type} [DecidableEq K] (P : EvictionPolicy K T S)
    (c : LocalCache K T S) (k : K) (v : T) : LocalCache K T S × Option K :=
  match lookupA c.store k with
  | some _ =>
      ({ c with store := putA c.store k v, policyState := P.access c.policyState k }, none)
  | none =>
      let checked :=
        if c.capacity ≤ c.store.length then
          match P.evict c.policyState with
          | (ps', some evictedKey) => (eraseA c.store evictedKey, ps', some evictedKey)
          | (ps', none) => (c.store, ps', none)
        else (c.store, c.policyState, none)
      ({ store := putA checked.1 k v
         policyState := P.add checked.2.1 k v
         capacity := c.capacity },
       checked.2.2)

/-- `LocalCache.Set` (dropping the instrumentation). -/
def LocalCache.Set {K T S : Type} [DecidableEq K] (P : EvictionPolicy K T S)
    (c : LocalCache K T S) (k : K) (v : T) : LocalCache K T S :=
  (LocalCache.SetEv P c k v).1

/-- `LocalCache.Delete`: remove from the store and from the policy; always succeeds. -/
def LocalCache.Delete {K T S : Type} [DecidableEq K] (P : EvictionPolicy K T S)
    (c : LocalCache K T S) (k : K) : LocalCache K T S :=
  { c with store := eraseA c.store k, policyState := P.remove c.policyState k }

/-- Run a sequence of `Set` calls, collecting the evicted keys in order. -/
def runSetsEv {K T S : Type} [DecidableEq K] (P : EvictionPolicy K T S)
    (c : LocalCache K T S) : List (K × T) → LocalCache K T S × List K
  | [] => (c, [])
  | (k, v) :: rest =>
      let step := LocalCache.SetEv P c k v
      let tail := runSetsEv P step.1 rest
      (tail.1, step.2.toList ++ tail.2)

/-! ### RedisCache (`redis_cache.go`) -/

/-- Errors of the remote tier: `redisNil` is `redis.Nil`, the distinguished
not-found error (`ErrKeyNotExist` in the source); `other` wraps every other
transport or (de)serialization error. -/
inductive RedisErr (E : Type) where
  | redisNil
  | other (e : E)
deriving DecidableEq, Repr

/-- `RedisCache`: the injected client read (`client.Get(ctx, key).Bytes()`,
yielding `redis.Nil` on an absent storage key), the `encoding/json`
(un)marshalling functions as parameters (`unmarshal` returns the value written
so far together with the error, as `json.Unmarshal` does), and the key
derivation function. -/
structure RedisCache (K T B E : Type) where
  clientGet : String → Except (RedisErr E) B
  marshal : T → B
  unmarshal : B → T × Option E
  keyFunc : K → String

/-- `RedisCache.Get`: fetch bytes by derived key and deserialize.  The source
discards the `json.Unmarshal` error (the check is commented out) and returns
the deserialized-so-far value with a `nil` error. -/
def RedisCache.Get {K T B E : Type} [Inhabited T] (cache : RedisCache K T B E)
    (id : K) : T × Option (RedisErr E) :=
  match cache.clientGet (cache.keyFunc id) with
  | .error e => (default, some e)
  | .ok data => ((cache.unmarshal data).1, none)

/-! ### TwoLevelCache (`compose_cache.go`) -/

/-- The mutable state a `TwoLevelCache` acts on: its local cache and the
contents of the shared remote store. -/
structure TwoLevelState (K T S B : Type) where
  localCache : LocalCache K T S
  remoteStore : String → Option B

/-- Result of `TwoLevelCache.Set`: the state at the moment `Set` returns, the
error returned to the caller, and the remote write dispatched asynchronously
(not yet applied to `remoteStore`, not awaited). -/
structure TLSetOut (K T S B E : Type) where
  state : TwoLevelState K T S B
  err : Option (RedisErr E)
  pending : String × B

/-- `TwoLevelCache.Set`: synchronous local write (its always-`nil` error is
ignored), asynchronous remote write, `return nil`. -/
def TwoLevelCache.Set {K T S B E : Type} [DecidableEq K] (P : EvictionPolicy K T S)
    (remote : RedisCache K T B E) (st : TwoLevelState K T S B) (id : K) (v : T) :
    TLSetOut K T S B E :=
  { state := { localCache := LocalCache.Set P st.localCache id v
               remoteStore := st.remoteStore }
    err := none
    pending := (remote.keyFunc id, remote.marshal v) }

/-! ### MultiLevelCache (`multi_level_cache.go`) -/

/-- Result of `redisClient.Get(ctx, key).Result()`: a hit, `redis.Nil`, or any
other transport error. -/
inductive RemoteReply (B E : Type) where
  | ok (b : B)
  | nil
  | err (e : E)
deriving DecidableEq, Repr

/-- The construction-time configuration of a `MultiLevelCache`: key derivation,
the caller-supplied loader, and the `encoding/json` (un)marshalling functions
as parameters. -/
structure MultiLevelCache (K T B E : Type) where
  keyToString : K → String
  loadFunc : K → Except E T
  marshal : T → B
  unmarshal : B → T × Option E

/-- The mutable state a `MultiLevelCache` acts on: the LRU local cache built by
`NewMultiLevelCache`, the health flag (initialized `true`), and the remote
store's reply function. -/
structure MLCState (K T B E : Type) where
  localCache : LocalCache K T (lruPolicy K T)
  redisEnabled : Bool
  remote : String → RemoteReply B E

/-- `MultiLevelCache.isRedisEnabled`. -/
def MLCState.isRedisEnabled {K T B E : Type} (c : MLCState K T B E) : Bool :=
  c.redisEnabled

/-- `NewMultiLevelCache`: fresh LRU local cache of the configured size,
`redisEnabled` starts `true`. -/
def newMLCState (K T : Type) {B E : Type} (localCacheSize : Int)
    (remote : String → RemoteReply B E) : MLCState K T B E :=
  { localCache := newLocalCacheLRU K T localCacheSize, redisEnabled := true
    remote := remote }

/-- `MultiLevelCache.Set`: synchronous local write; when the remote is marked
healthy, an asynchronous remote write of the serialized value is dispatched
(second component); the returned error is always `nil`. -/
def MultiLevelCache.Set {K T B E : Type} [DecidableEq K] (m : MultiLevelCache K T B E)
    (c : MLCState K T B E) (k : K) (v : T) : MLCState K T B E × Option (String × B) :=
  ({ c with localCache := LocalCache.Set (lruEvictionPolicy K T) c.localCache k v },
   if c.isRedisEnabled then some (m.keyToString k, m.marshal v) else none)

/-- Result of `MultiLevelCache.Get`: the caller-visible result, the state at
return, whether the (deduplicated) loader was invoked, and the asynchronous
remote writes dispatched on the way. -/
structure MLGetOut (K T B E : Type) where
  result : Except E T
  state : MLCState K T B E
  loaderCalled : Bool
  pending : List (String × B)

/-- `MultiLevelCache.Get`: local cache, then the remote store if the health
flag is up (a hit that deserializes is backfilled locally and returned; a
deserialization failure, a `redis.Nil` and any other remote error all fall
through), then the `singleflight`-deduplicated loader, whose successful result
is written back through `Set`.  The deduplication registry is observed here
with a single sequential caller, for which `Do` simply invokes the closure. -/
def MultiLevelCache.Get {K T B E : Type} [DecidableEq K] (m : MultiLevelCache K T B E)
    (c : MLCState K T B E) (key : K) : MLGetOut K T B E :=
  match LocalCache.Get (lruEvictionPolicy K T) c.localCache key with
  | (some val, local') =>
      { result := .ok val, state := { c with localCache := local' }
        loaderCalled := false, pending := [] }
  | (none, _) =>
      let viaRedis : Option (T × MLCState K T B E) :=
        if c.isRedisEnabled then
          match c.remote (m.keyToString key) with
          | .ok bytes =>
              match m.unmarshal bytes with
              | (parsedVal, none) =>
                  some (parsedVal,
                        { c with localCache :=
                            LocalCache.Set (lruEvictionPolicy K T) c.localCache key parsedVal })
              | (_, some _) => none
          | .nil => none
          | .err _ => none
        else none
      match viaRedis with
      | some (v, c') =>
          { result := .ok v, state := c', loaderCalled := false, pending := [] }
      | none =>
          match m.loadFunc key with
          | .error e =>
              { result := .error e, state := c, loaderCalled := true, pending := [] }
          | .ok v =>
              let setRes := MultiLevelCache.Set m c key v
              { result := .ok v, state := setRes.1, loaderCalled := true
                pending := setRes.2.toList }

/-- `MultiLevelCache.Delete`: synchronous local delete; an asynchronous remote
delete is dispatched when the health flag is up (second component). -/
def MultiLevelCache.Delete {K T B E : Type} [DecidableEq K] (m : MultiLevelCache K T B E)
    (c : MLCState K T B E) (k : K) : MLCState K T B E × Option String :=
  ({ c with localCache := LocalCache.Delete (lruEvictionPolicy K T) c.localCache k },
   if c.isRedisEnabled then some (m.keyToString k) else none)

/-- One tick of `healthCheck`: a successful `Ping` sets the flag to `true`;
a failed one writes nothing. -/
def healthProbe {K T B E : Type} (c : MLCState K T B E) (ok : Bool) : MLCState K T B E :=
  if ok then { c with redisEnabled := true } else c

/-- The events acting on a `MultiLevelCache`: the three public operations and
the periodic health probe (with the outcome of its `Ping`). -/
inductive MLCOp (K T : Type) where
  | get (k : K)
  | set (k : K) (v : T)
  | del (k : K)
  | probe (ok : Bool)

/-- One step of the multi-level cache's event system. -/
def mlcStep {K T B E : Type} [DecidableEq K] (m : MultiLevelCache K T B E)
    (c : MLCState K T B E) : MLCOp K T → MLCState K T B E
  | .get k => (MultiLevelCache.Get m c k).state
  | .set k v => (MultiLevelCache.Set m c k v).1
  | .del k => (MultiLevelCache.Delete m c k).1
  | .probe ok => healthProbe c ok

/-- Run the multi-level cache from construction through a sequence of events. -/
def mlcRun {K T B E : Type} [DecidableEq K] (m : MultiLevelCache K T B E)
    (localCacheSize : Int) (remote : String → RemoteReply B E)
    (ops : List (MLCOp K T)) : MLCState K T B E :=
  ops.foldl (mlcStep m) (newMLCState K T localCacheSize remote)

/-! ### Well-formedness of the LFU policy state.
In the source, `elements` and the frequency buckets share their `lfuItem`
pointers; the properties below are the shape this sharing keeps in every
reachable state: each `elements` entry records its own key, frequencies are
unique in `freqMap`, keys are unique inside a bucket, and every bucket member
sits in the bucket of its own frequency and is the registered element of its
key. -/

/-- Well-formedness of an `lfuPolicy` state. -/
def lfuWF {K T : Type} [DecidableEq K] (p : lfuPolicy K T) : Prop :=
  (∀ e ∈ p.elements, e.2.key = e.1) ∧
  (p.freqMap.map Prod.fst).Nodup ∧
  (∀ fb ∈ p.freqMap, (fb.2.map lfuItem.key).Nodup) ∧
  (∀ fb ∈ p.freqMap, ∀ it ∈ fb.2, it.frequency = fb.1 ∧ lookupA p.elements it.key = some it)

/-- The spec's minimum-frequency-bucket invariant: while any entry is tracked,
the bucket at the current minimum frequency exists and is non-empty. -/
def minBucketInv {K T : Type} [DecidableEq K] (p : lfuPolicy K T) : Prop :=
  p.elements ≠ [] → bucketOf p p.minFreq ≠ []

/-! ### The LocalCache invariants -/

/-- Invariant of an LFU-backed `LocalCache` (holds after construction and after
every complete `Set`). -/
def InvLFU {K T : Type} [DecidableEq K] (c : LocalCache K T (lfuPolicy K T)) : Prop :=
  1 ≤ c.capacity ∧
  (c.store.map Prod.fst).Nodup ∧
  c.store.length ≤ c.capacity ∧
  (∀ k, (lookupA c.store k).isSome = (lookupA c.policyState.elements k).isSome) ∧
  lfuWF c.policyState ∧
  minBucketInv c.policyState

/-- Invariant of an LRU-backed `LocalCache`. -/
def InvLRU {K T : Type} [DecidableEq K] (c : LocalCache K T (lruPolicy K T)) : Prop :=
  1 ≤ c.capacity ∧
  (c.store.map Prod.fst).Nodup ∧
  c.store.length ≤ c.capacity ∧
  (c.policyState.ll.map lruItem.key).Nodup ∧
  (∀ k, (lookupA c.store k).isSome = hasK lruItem.key c.policyState.ll k)

/-! ### Concrete scenario states and canonical LRU run states -/

/-- The LRU cache state reached by inserting the distinct-keyed pairs `cur` in
order into an empty cache: newest entry first in both the store and the
recency list. -/
def lruCanon (K T : Type) [DecidableEq K] (capacity : Nat) (cur : List (K × T)) :
    LocalCache K T (lruPolicy K T) :=
  { store := cur.reverse
    policyState := { capacity := capacity
                     ll := (cur.map (fun q => lruItem.mk q.1 q.2)).reverse }
    capacity := capacity }

/-- The LFU frequency-law scenario of the spec: capacity 2, insert keys 1 and
2, then read key 1 three times and key 2 once. -/
def lfuScenario : LocalCache Nat Nat (lfuPolicy Nat Nat) :=
  (LocalCache.Get (lfuEvictionPolicy Nat Nat)
    ((LocalCache.Get (lfuEvictionPolicy Nat Nat)
      ((LocalCache.Get (lfuEvictionPolicy Nat Nat)
        ((LocalCache.Get (lfuEvictionPolicy Nat Nat)
          (LocalCache.Set (lfuEvictionPolicy Nat Nat)
            (LocalCache.Set (lfuEvictionPolicy Nat Nat)
              (newLocalCacheLFU Nat Nat 2) 1 10) 2 20) 1).2) 1).2) 1).2) 2).2

/-- The LFU policy state reached by `Add 1`, `Access 1`, `Add 2`, `Evict`: the
eviction discards the bucket at the minimum frequency without advancing the
marker, although key 1 is still tracked at frequency 2. -/
def lfuCexState : lfuPolicy Nat Nat :=
  ((((newLFUPolicy Nat Nat).Add 1 10).Access 1).Add 2 20).Evict.1

/-- A remote cache whose client always yields bytes that fail to deserialize:
`unmarshal` reports error `42` after writing `7` into the value. -/
def cexRedisCache : RedisCache Nat Nat Nat Nat :=
  { clientGet := fun _ => Except.ok 0
    marshal := fun v => v
    unmarshal := fun _ => (7, some 42)
    keyFunc := fun _ => "k" }

/-- A remote cache whose client always reports the key as absent. -/
def cexRedisCacheNil : RedisCache Nat Nat Nat Nat :=
  { clientGet := fun _ => Except.error RedisErr.redisNil
    marshal := fun v => v
    unmarshal := fun b => (b, none)
    keyFunc := fun _ => "k" }

/-- A multi-level cache configuration whose loader always fails with error `5`. -/
def wMLC : MultiLevelCache Nat Nat Nat Nat :=
  { keyToString := fun _ => "k"
    loadFunc := fun _ => Except.error 5
    marshal := fun v => v
    unmarshal := fun b => (b, none) }

/-- A multi-level cache state with an empty local cache and the health flag down. -/
def wMLCState : MLCState Nat Nat Nat Nat :=
  { localCache := newLocalCacheLRU Nat Nat 4
    redisEnabled := false
    remote := fun _ => RemoteReply.nil }

/-- A multi-level cache configuration whose deserialization always fails with
error `9` and whose loader returns `3`. -/
def wMLC2 : MultiLevelCache Nat Nat Nat Nat :=
  { keyToString := fun _ => "k"
    loadFunc := fun _ => Except.ok 3
    marshal := fun v => v
    unmarshal := fun _ => (0, some 9) }

/-- A multi-level cache state with an empty local cache, the health flag up,
and a remote store that always returns bytes. -/
def wMLCState2 : MLCState Nat Nat Nat Nat :=
  { localCache := newLocalCacheLRU Nat Nat 4
    redisEnabled := true
    remote := fun _ => RemoteReply.ok 7 }

/-! ### Lemmas about the association-list map model -/

variable {K V A T B E : Type}

@[simp] theorem lookupA_nil [DecidableEq K] (k : K) : lookupA ([] : List (K × V)) k = none := rfl

@[simp] theorem lookupA_cons [DecidableEq K] (k' k : K) (v : V) (m : List (K × V)) :
    lookupA ((k', v) :: m) k = if k' = k then some v else lookupA m k := rfl

@[simp] theorem eraseA_nil [DecidableEq K] (k : K) : eraseA ([] : List (K × V)) k = [] := rfl

@[simp] theorem eraseA_cons [DecidableEq K] (k' k : K) (v : V) (m : List (K × V)) :
    eraseA ((k', v) :: m) k = if k' = k then eraseA m k else (k', v) :: eraseA m k := rfl

theorem lookupA_eraseA_self [DecidableEq K] (m : List (K × V)) (k : K) :
    lookupA (eraseA m k) k = none := by
  induction m with
  | nil => rfl
  | cons p rest ih =>
      obtain ⟨k', v⟩ := p
      by_cases h : k' = k <;> simp [h, ih]

theorem lookupA_eraseA_ne [DecidableEq K] (m : List (K × V)) (k k' : K) (h : k' ≠ k) :
    lookupA (eraseA m k) k' = lookupA m k' := by
  induction m with
  | nil => rfl
  | cons p rest ih =>
      obtain ⟨k₀, v⟩ := p
      by_cases h0 : k₀ = k
      · subst h0
        rw [eraseA_cons, if_pos rfl, lookupA_cons, if_neg (fun hc => h hc.symm)]
        exact ih
      · rw [eraseA_cons, if_neg h0, lookupA_cons, lookupA_cons]
        by_cases h1 : k₀ = k' <;> simp [h1, ih]

@[simp] theorem lookupA_putA_self [DecidableEq K] (m : List (K × V)) (k : K) (v : V) :
    lookupA (putA m k v) k = some v := by
  simp [putA]

theorem lookupA_putA_ne [DecidableEq K] (m : List (K × V)) (k k' : K) (v : V) (h : k' ≠ k) :
    lookupA (putA m k v) k' = lookupA m k' := by
  simp [putA, Ne.symm h, lookupA_eraseA_ne m k k' h]

theorem mem_of_mem_eraseA [DecidableEq K] {m : List (K × V)} {k : K} {p : K × V}
    (h : p ∈ eraseA m k) : p ∈ m := by
  induction m with
  | nil => simp at h
  | cons q rest ih =>
      obtain ⟨k₀, v₀⟩ := q
      by_cases h0 : k₀ = k
      · simp only [eraseA_cons, if_pos h0] at h
        exact List.mem_cons_of_mem _ (ih h)
      · simp only [eraseA_cons, if_neg h0] at h
        rcases List.mem_cons.1 h with h | h
        · exact h ▸ List.mem_cons_self _ _
        · exact List.mem_cons_of_mem _ (ih h)

theorem mem_of_mem_putA [DecidableEq K] {m : List (K × V)} {k : K} {v : V} {p : K × V}
    (h : p ∈ putA m k v) : p = (k, v) ∨ p ∈ m := by
  rcases List.mem_cons.1 h with h | h
  · exact Or.inl h
  · exact Or.inr (mem_of_mem_eraseA h)

theorem lookupA_mem [DecidableEq K] {m : List (K × V)} {k : K} {v : V}
    (h : lookupA m k = some v) : (k, v) ∈ m := by
  induction m with
  | nil => simp at h
  | cons p rest ih =>
      obtain ⟨k₀, v₀⟩ := p
      by_cases h0 : k₀ = k
      · subst h0
        simp at h
        simp [h]
      · simp [h0] at h
        exact List.mem_cons_of_mem _ (ih h)

theorem lookupA_eq_none_of_not_mem_keys [DecidableEq K] {m : List (K × V)} {k : K}
    (h : k ∉ m.map Prod.fst) : lookupA m k = none := by
  induction m with
  | nil => rfl
  | cons p rest ih =>
      obtain ⟨k₀, v₀⟩ := p
      rw [List.map_cons, List.mem_cons] at h
      push_neg at h
      rw [lookupA_cons, if_neg (fun hc => h.1 hc.symm)]
      exact ih h.2

theorem mem_keys_of_lookupA_isSome [DecidableEq K] {m : List (K × V)} {k : K}
    (h : (lookupA m k).isSome = true) : k ∈ m.map Prod.fst := by
  by_contra hk
  rw [lookupA_eq_none_of_not_mem_keys hk] at h
  simp at h

theorem eraseA_of_not_mem_keys [DecidableEq K] {m : List (K × V)} {k : K}
    (h : k ∉ m.map Prod.fst) : eraseA m k = m := by
  induction m with
  | nil => rfl
  | cons p rest ih =>
      obtain ⟨k₀, v₀⟩ := p
      rw [List.map_cons, List.mem_cons] at h
      push_neg at h
      rw [eraseA_cons, if_neg (fun hc => h.1 hc.symm)]
      rw [ih h.2]

theorem length_eraseA_le [DecidableEq K] (m : List (K × V)) (k : K) :
    (eraseA m k).length ≤ m.length := by
  induction m with
  | nil => simp
  | cons p rest ih =>
      obtain ⟨k₀, v₀⟩ := p
      by_cases h0 : k₀ = k <;> simp [h0] <;> omega

theorem keys_eraseA_subset [DecidableEq K] (m : List (K × V)) (k : K) :
    ((eraseA m k).map Prod.fst) ⊆ m.map Prod.fst := by
  intro x hx
  rcases List.mem_map.1 hx with ⟨p, hp, rfl⟩
  exact List.mem_map_of_mem _ (mem_of_mem_eraseA hp)

theorem keys_eraseA_nodup [DecidableEq K] {m : List (K × V)} (k : K)
    (h : (m.map Prod.fst).Nodup) : ((eraseA m k).map Prod.fst).Nodup := by
  induction m with
  | nil => simp
  | cons p rest ih =>
      obtain ⟨k₀, v₀⟩ := p
      rw [List.map_cons, List.nodup_cons] at h
      by_cases h0 : k₀ = k
      · rw [eraseA_cons, if_pos h0]
        exact ih h.2
      · rw [eraseA_cons, if_neg h0, List.map_cons, List.nodup_cons]
        exact ⟨fun hc => h.1 (keys_eraseA_subset rest k hc), ih h.2⟩

theorem not_mem_keys_eraseA_self [DecidableEq K] (m : List (K × V)) (k : K) :
    k ∉ (eraseA m k).map Prod.fst := by
  induction m with
  | nil => simp
  | cons p rest ih =>
      obtain ⟨k₀, v₀⟩ := p
      by_cases h0 : k₀ = k
      · rw [eraseA_cons, if_pos h0]
        exact ih
      · rw [eraseA_cons, if_neg h0, List.map_cons]
        intro hc
        rcases List.mem_cons.1 hc with h | h
        · exact h0 h.symm
        · exact ih h

theorem keys_putA_nodup [DecidableEq K] {m : List (K × V)} (k : K) (v : V)
    (h : (m.map Prod.fst).Nodup) : ((putA m k v).map Prod.fst).Nodup := by
  simp only [putA, List.map_cons, List.nodup_cons]
  exact ⟨not_mem_keys_eraseA_self m k, keys_eraseA_nodup k h⟩

theorem length_eraseA_of_mem [DecidableEq K] {m : List (K × V)} {k : K}
    (hnd : (m.map Prod.fst).Nodup) (h : k ∈ m.map Prod.fst) :
    (eraseA m k).length + 1 = m.length := by
  induction m with
  | nil => simp at h
  | cons p rest ih =>
      obtain ⟨k₀, v₀⟩ := p
      rw [List.map_cons, List.nodup_cons] at hnd
      rw [List.map_cons, List.mem_cons] at h
      by_cases h0 : k₀ = k
      · subst h0
        rw [eraseA_cons, if_pos rfl, eraseA_of_not_mem_keys hnd.1]
        simp
      · rcases h with h | h
        · exact absurd h.symm h0
        · rw [eraseA_cons, if_neg h0]
          have := ih hnd.2 h
          simp only [List.length_cons]
          omega

theorem length_putA_of_mem [DecidableEq K] {m : List (K × V)} {k : K} (v : V)
    (hnd : (m.map Prod.fst).Nodup) (h : k ∈ m.map Prod.fst) :
    (putA m k v).length = m.length := by
  simp only [putA, List.length_cons]
  exact length_eraseA_of_mem hnd h

theorem length_putA_of_not_mem [DecidableEq K] {m : List (K × V)} {k : K} (v : V)
    (h : k ∉ m.map Prod.fst) : (putA m k v).length = m.length + 1 := by
  simp [putA, eraseA_of_not_mem_keys h]

/-! ### Lemmas about keyed lists -/

@[simp] theorem eraseK_nil [DecidableEq K] (f : A → K) (k : K) : eraseK f [] k = [] := rfl

@[simp] theorem eraseK_cons [DecidableEq K] (f : A → K) (a : A) (l : List A) (k : K) :
    eraseK f (a :: l) k = if f a = k then l else a :: eraseK f l k := rfl

@[simp] theorem findK_nil [DecidableEq K] (f : A → K) (k : K) : findK f [] k = none := rfl

@[simp] theorem findK_cons [DecidableEq K] (f : A → K) (a : A) (l : List A) (k : K) :
    findK f (a :: l) k = if f a = k then some a else findK f l k := rfl

theorem findK_some [DecidableEq K] {f : A → K} {l : List A} {k : K} {a : A}
    (h : findK f l k = some a) : a ∈ l ∧ f a = k := by
  induction l with
  | nil => simp at h
  | cons b rest ih =>
      by_cases hb : f b = k
      · simp [hb] at h
        subst h
        exact ⟨List.mem_cons_self _ _, hb⟩
      · simp [hb] at h
        obtain ⟨h1, h2⟩ := ih h
        exact ⟨List.mem_cons_of_mem _ h1, h2⟩

theorem findK_eq_none_of_not_mem [DecidableEq K] {f : A → K} {l : List A} {k : K}
    (h : k ∉ l.map f) : findK f l k = none := by
  induction l with
  | nil => rfl
  | cons b rest ih =>
      rw [List.map_cons, List.mem_cons] at h
      push_neg at h
      rw [findK_cons, if_neg (fun hc => h.1 hc.symm)]
      exact ih h.2

theorem hasK_of_mem [DecidableEq K] {f : A → K} {l : List A} {a : A}
    (h : a ∈ l) : hasK f l (f a) = true := by
  induction l with
  | nil => simp at h
  | cons b rest ih =>
      rcases List.mem_cons.1 h with h | h
      · subst h
        simp [hasK]
      · by_cases hb : f b = f a <;> simp [hasK, hb] at ih ⊢
        exact ih h

theorem mem_keys_of_hasK [DecidableEq K] {f : A → K} {l : List A} {k : K}
    (h : hasK f l k = true) : k ∈ l.map f := by
  by_contra hk
  simp [hasK, findK_eq_none_of_not_mem hk] at h

theorem hasK_eq_false_of_not_mem [DecidableEq K] {f : A → K} {l : List A} {k : K}
    (h : k ∉ l.map f) : hasK f l k = false := by
  simp [hasK, findK_eq_none_of_not_mem h]

theorem eraseK_sublist [DecidableEq K] (f : A → K) (l : List A) (k : K) :
    (eraseK f l k).Sublist l := by
  induction l with
  | nil => simp
  | cons b rest ih =>
      by_cases hb : f b = k
      · simp [hb]
      · simp only [eraseK_cons, if_neg hb]
        exact ih.cons₂ b

theorem mem_of_mem_eraseK [DecidableEq K] {f : A → K} {l : List A} {k : K} {a : A}
    (h : a ∈ eraseK f l k) : a ∈ l :=
  (eraseK_sublist f l k).subset h

theorem eraseK_of_not_mem [DecidableEq K] {f : A → K} {l : List A} {k : K}
    (h : k ∉ l.map f) : eraseK f l k = l := by
  induction l with
  | nil => rfl
  | cons b rest ih =>
      rw [List.map_cons, List.mem_cons] at h
      push_neg at h
      rw [eraseK_cons, if_neg (fun hc => h.1 hc.symm)]
      rw [ih h.2]

theorem mem_eraseK_of_mem_of_ne [DecidableEq K] {f : A → K} {l : List A} {k : K} {a : A}
    (h : a ∈ l) (hne : f a ≠ k) : a ∈ eraseK f l k := by
  induction l with
  | nil => simp at h
  | cons b rest ih =>
      by_cases hb : f b = k
      · simp only [eraseK_cons, if_pos hb]
        rcases List.mem_cons.1 h with h | h
        · subst h
          exact absurd hb hne
        · exact h
      · simp only [eraseK_cons, if_neg hb]
        rcases List.mem_cons.1 h with h | h
        · exact h ▸ List.mem_cons_self _ _
        · exact List.mem_cons_of_mem _ (ih h)

theorem not_mem_keys_eraseK [DecidableEq K] {f : A → K} {l : List A} {k : K}
    (hnd : (l.map f).Nodup) : k ∉ (eraseK f l k).map f := by
  induction l with
  | nil => simp
  | cons b rest ih =>
      rw [List.map_cons, List.nodup_cons] at hnd
      by_cases hb : f b = k
      · rw [eraseK_cons, if_pos hb]
        subst hb
        exact hnd.1
      · rw [eraseK_cons, if_neg hb, List.map_cons]
        intro hc
        rcases List.mem_cons.1 hc with h | h
        · exact hb h.symm
        · exact ih hnd.2 h

theorem keys_eraseK_nodup [DecidableEq K] {f : A → K} {l : List A} (k : K)
    (hnd : (l.map f).Nodup) : ((eraseK f l k).map f).Nodup :=
  hnd.sublist ((eraseK_sublist f l k).map f)

/-! ### Further list lemmas -/

theorem lookupA_eq_of_mem_of_nodup [DecidableEq K] {m : List (K × V)} {k : K} {v : V}
    (hnd : (m.map Prod.fst).Nodup) (h : (k, v) ∈ m) : lookupA m k = some v := by
  induction m with
  | nil => simp at h
  | cons p rest ih =>
      obtain ⟨k₀, v₀⟩ := p
      rw [List.map_cons, List.nodup_cons] at hnd
      rcases List.mem_cons.1 h with h | h
      · cases h
        simp
      · have hk : k₀ ≠ k := by
          intro hc
          refine hnd.1 ?_
          rw [hc]
          exact List.mem_map.2 ⟨(k, v), h, rfl⟩
        rw [lookupA_cons, if_neg hk]
        exact ih hnd.2 h

theorem lookupA_isSome_of_mem_keys [DecidableEq K] {m : List (K × V)} {k : K}
    (h : k ∈ m.map Prod.fst) : (lookupA m k).isSome = true := by
  induction m with
  | nil => simp at h
  | cons p rest ih =>
      obtain ⟨k₀, v₀⟩ := p
      rw [List.map_cons, List.mem_cons] at h
      by_cases h0 : k₀ = k
      · rw [lookupA_cons, if_pos h0]
        rfl
      · rcases h with h | h
        · exact absurd h.symm h0
        · rw [lookupA_cons, if_neg h0]
          exact ih h

theorem ne_nil_of_lookupA_isSome [DecidableEq K] {m : List (K × V)} {k : K}
    (h : (lookupA m k).isSome = true) : m ≠ [] := by
  intro hc
  subst hc
  simp at h

theorem findK_eraseK_ne [DecidableEq K] (f : A → K) (l : List A) (k k' : K) (h : k' ≠ k) :
    findK f (eraseK f l k) k' = findK f l k' := by
  induction l with
  | nil => rfl
  | cons a rest ih =>
      by_cases ha : f a = k
      · rw [eraseK_cons, if_pos ha, findK_cons, if_neg (by rw [ha]; exact fun hc => h hc.symm)]
      · rw [eraseK_cons, if_neg ha, findK_cons, findK_cons]
        by_cases ha' : f a = k' <;> simp [ha', ih]

theorem hasK_of_mem_keys [DecidableEq K] {f : A → K} {l : List A} {k : K}
    (h : k ∈ l.map f) : hasK f l k = true := by
  rcases List.mem_map.1 h with ⟨a, ha, rfl⟩
  exact hasK_of_mem ha

theorem dropLast_concat_of_getLast? {l : List A} {a : A} (h : l.getLast? = some a) :
    l.dropLast ++ [a] = l := by
  induction l with
  | nil => simp at h
  | cons b rest ih =>
      cases rest with
      | nil =>
          simp at h
          subst h
          simp
      | cons c cs =>
          rw [List.getLast?_cons_cons] at h
          rw [List.dropLast_cons₂, List.cons_append, ih h]

theorem mem_of_getLast? {l : List A} {a : A} (h : l.getLast? = some a) : a ∈ l := by
  rw [← dropLast_concat_of_getLast? h]
  simp

theorem lookup_freqMap_of_mem_bucketOf {K T : Type} [DecidableEq K]
    {p : lfuPolicy K T} {g : Nat} {it : lfuItem K T} (h : it ∈ bucketOf p g) :
    lookupA p.freqMap g = some (bucketOf p g) := by
  rw [bucketOf] at h ⊢
  cases hb : lookupA p.freqMap g with
  | none => rw [hb] at h; simp at h
  | some b => simp [hb]

/-- In a well-formed state, a bucket member is the registered element of its
key and lives at its registered frequency. -/
theorem lfuWF_bucket_item {K T : Type} [DecidableEq K] {p : lfuPolicy K T}
    (hwf : lfuWF p) {g : Nat} {it : lfuItem K T} (h : it ∈ bucketOf p g) :
    it.frequency = g ∧ lookupA p.elements it.key = some it := by
  have hb := lookup_freqMap_of_mem_bucketOf h
  exact hwf.2.2.2 _ (lookupA_mem hb) it h

/-- In a well-formed state, a bucket other than the one of the registered
frequency of `k` contains no element with key `k`. -/
theorem lfuWF_no_stray {K T : Type} [DecidableEq K] {p : lfuPolicy K T}
    (hwf : lfuWF p) {k : K} {it₀ : lfuItem K T}
    (hlk : lookupA p.elements k = some it₀) {g : Nat} (hg : g ≠ it₀.frequency) :
    ∀ it ∈ bucketOf p g, it.key ≠ k := by
  intro it hit hk
  obtain ⟨hfreq, hreg⟩ := lfuWF_bucket_item hwf hit
  rw [hk, hlk] at hreg
  have heq : it₀ = it := Option.some.inj hreg
  subst heq
  exact hg hfreq.symm

/-- In a well-formed state, an unregistered key appears in no bucket. -/
theorem lfuWF_no_key {K T : Type} [DecidableEq K] {p : lfuPolicy K T}
    (hwf : lfuWF p) {k : K} (hlk : lookupA p.elements k = none) :
    ∀ g : Nat, ∀ it ∈ bucketOf p g, it.key ≠ k := by
  intro g it hit hk
  obtain ⟨-, hreg⟩ := lfuWF_bucket_item hwf hit
  rw [hk, hlk] at hreg
  exact Option.noConfusion hreg

theorem lfuWF_bucket_keys_nodup {K T : Type} [DecidableEq K] {p : lfuPolicy K T}
    (hwf : lfuWF p) (g : Nat) : ((bucketOf p g).map lfuItem.key).Nodup := by
  rw [bucketOf]
  cases hb : lookupA p.freqMap g with
  | none => simp
  | some b => exact hwf.2.2.1 _ (lookupA_mem hb)

theorem mem_eraseA_strong [DecidableEq K] {m : List (K × V)} {k : K} {p : K × V}
    (h : p ∈ eraseA m k) : p ∈ m ∧ p.1 ≠ k := by
  obtain ⟨a, b⟩ := p
  refine ⟨mem_of_mem_eraseA h, ?_⟩
  intro hc
  cases hc
  exact not_mem_keys_eraseA_self m a (List.mem_map_of_mem Prod.fst h)

theorem mem_putA_strong [DecidableEq K] {m : List (K × V)} {k : K} {v : V} {p : K × V}
    (h : p ∈ putA m k v) : p = (k, v) ∨ (p ∈ m ∧ p.1 ≠ k) := by
  rcases List.mem_cons.1 h with h | h
  · exact Or.inl h
  · exact Or.inr (mem_eraseA_strong h)

theorem getLast?_isSome_of_ne_nil {l : List A} (h : l ≠ []) : ∃ a, l.getLast? = some a := by
  induction l with
  | nil => exact absurd rfl h
  | cons b rest ih =>
      cases rest with
      | nil => exact ⟨b, rfl⟩
      | cons c cs =>
          obtain ⟨a, ha⟩ := ih (by simp)
          exact ⟨a, by rw [List.getLast?_cons_cons]; exact ha⟩

/-! ### Branch equations for the LFU operations -/

theorem lfu_increment_eq_of_empty {K T : Type} [DecidableEq K] {p : lfuPolicy K T}
    {item : lfuItem K T}
    (hE : eraseK lfuItem.key (bucketOf p item.frequency) item.key = []) :
    p.increment item =
      { minFreq := if p.minFreq = item.frequency then p.minFreq + 1 else p.minFreq
        elements := putA p.elements item.key { item with frequency := item.frequency + 1 }
        freqMap := putA (eraseA p.freqMap item.frequency) (item.frequency + 1)
                     ({ item with frequency := item.frequency + 1 } ::
                       bucketOf p (item.frequency + 1)) } := by
  simp only [lfuPolicy.increment, hE, List.isEmpty_nil, if_true]
  rw [lookupA_eraseA_ne _ _ _ (Nat.succ_ne_self _)]
  rfl

theorem lfu_increment_eq_of_ne {K T : Type} [DecidableEq K] {p : lfuPolicy K T}
    {item : lfuItem K T}
    (hE : eraseK lfuItem.key (bucketOf p item.frequency) item.key ≠ []) :
    p.increment item =
      { minFreq := p.minFreq
        elements := putA p.elements item.key { item with frequency := item.frequency + 1 }
        freqMap := putA (putA p.freqMap item.frequency
                          (eraseK lfuItem.key (bucketOf p item.frequency) item.key))
                     (item.frequency + 1)
                     ({ item with frequency := item.frequency + 1 } ::
                       bucketOf p (item.frequency + 1)) } := by
  have hE' : (eraseK lfuItem.key (bucketOf p item.frequency) item.key).isEmpty = false := by
    cases hq : eraseK lfuItem.key (bucketOf p item.frequency) item.key with
    | nil => exact absurd hq hE
    | cons a l => rfl
  simp only [lfuPolicy.increment, hE', Bool.false_eq_true, if_false]
  rw [lookupA_putA_ne _ _ _ _ (Nat.succ_ne_self _)]
  rfl

theorem lfu_Add_eq_of_none {K T : Type} [DecidableEq K] {p : lfuPolicy K T} {k : K} {v : T}
    (hlk : lookupA p.elements k = none) :
    p.Add k v = { minFreq := 1
                  elements := putA p.elements k ⟨k, v, 1⟩
                  freqMap := putA p.freqMap 1 (⟨k, v, 1⟩ :: bucketOf p 1) } := by
  simp only [lfuPolicy.Add, hlk]

theorem lfu_Add_eq_of_some {K T : Type} [DecidableEq K] {p : lfuPolicy K T} {k : K} {v : T}
    {it₀ : lfuItem K T} (hlk : lookupA p.elements k = some it₀) :
    p.Add k v = p.increment { it₀ with value := v } := by
  simp only [lfuPolicy.Add, hlk]

theorem lfu_Access_eq_of_none {K T : Type} [DecidableEq K] {p : lfuPolicy K T} {k : K}
    (hlk : lookupA p.elements k = none) : p.Access k = p := by
  simp only [lfuPolicy.Access, hlk]

theorem lfu_Access_eq_of_some {K T : Type} [DecidableEq K] {p : lfuPolicy K T} {k : K}
    {it₀ : lfuItem K T} (hlk : lookupA p.elements k = some it₀) :
    p.Access k = p.increment it₀ := by
  simp only [lfuPolicy.Access, hlk]

theorem lfu_Evict_eq_of_none {K T : Type} [DecidableEq K] {p : lfuPolicy K T}
    (h : (bucketOf p p.minFreq).getLast? = none) : p.Evict = (p, none) := by
  simp only [lfuPolicy.Evict, h]

theorem lfu_Evict_eq_of_some {K T : Type} [DecidableEq K] {p : lfuPolicy K T}
    {back : lfuItem K T} (h : (bucketOf p p.minFreq).getLast? = some back) :
    p.Evict =
      ({ minFreq := p.minFreq
         elements := eraseA p.elements back.key
         freqMap := if (bucketOf p p.minFreq).dropLast.isEmpty then
                      eraseA p.freqMap p.minFreq
                    else putA p.freqMap p.minFreq (bucketOf p p.minFreq).dropLast },
       some back.key) := by
  simp only [lfuPolicy.Evict, h]

theorem bucketOf_eq_of_mem {K T : Type} [DecidableEq K] {p : lfuPolicy K T}
    (hnd : (p.freqMap.map Prod.fst).Nodup) {fb : Nat × List (lfuItem K T)}
    (hfb : fb ∈ p.freqMap) : bucketOf p fb.1 = fb.2 := by
  rw [bucketOf, lookupA_eq_of_mem_of_nodup hnd (by rw [Prod.mk.eta]; exact hfb)]
  rfl

/-- `increment` preserves well-formedness and the set of registered keys,
whenever it is applied (as the source applies it) to the item registered for
its key, up to a value update. -/
theorem lfu_increment_wf {K T : Type} [DecidableEq K] {p : lfuPolicy K T}
    {item it₀ : lfuItem K T} (hwf : lfuWF p)
    (hlk : lookupA p.elements item.key = some it₀)
    (hfreq : it₀.frequency = item.frequency) :
    lfuWF (p.increment item) ∧
    (∀ k', (lookupA (p.increment item).elements k').isSome =
           (lookupA p.elements k').isSome) := by
  have hstray : ∀ g, g ≠ item.frequency → ∀ it ∈ bucketOf p g, it.key ≠ item.key := by
    intro g hg it hit
    exact lfuWF_no_stray hwf hlk (by rw [hfreq]; exact hg) it hit
  have hnew_no_k : ∀ it ∈ bucketOf p (item.frequency + 1), it.key ≠ item.key :=
    hstray _ (Nat.succ_ne_self _)
  have hnew_nodup := lfuWF_bucket_keys_nodup hwf (item.frequency + 1)
  have hnew_item : ∀ it ∈ bucketOf p (item.frequency + 1),
      it.frequency = item.frequency + 1 ∧ lookupA p.elements it.key = some it :=
    fun it hit => lfuWF_bucket_item hwf hit
  have hkeys : ∀ k', (lookupA (putA p.elements item.key
      { item with frequency := item.frequency + 1 }) k').isSome =
      (lookupA p.elements k').isSome := by
    intro k'
    by_cases hk' : k' = item.key
    · subst hk'
      rw [lookupA_putA_self, hlk]
      rfl
    · rw [lookupA_putA_ne _ _ _ _ hk']
  by_cases hE : eraseK lfuItem.key (bucketOf p item.frequency) item.key = []
  · rw [lfu_increment_eq_of_empty hE]
    refine ⟨⟨?_, ?_, ?_, ?_⟩, hkeys⟩
    · intro e he
      rcases mem_of_mem_putA he with rfl | he₂
      · rfl
      · exact hwf.1 e he₂
    · exact keys_putA_nodup _ _ (keys_eraseA_nodup _ hwf.2.1)
    · intro fb hfb
      rcases mem_putA_strong hfb with rfl | ⟨hfb₂, hfb₁⟩
      · rw [List.map_cons, List.nodup_cons]
        refine ⟨?_, hnew_nodup⟩
        intro hc
        rcases List.mem_map.1 hc with ⟨it, hit, hkey⟩
        exact hnew_no_k it hit hkey
      · exact hwf.2.2.1 fb (mem_of_mem_eraseA hfb₂)
    · intro fb hfb it hit
      rcases mem_putA_strong hfb with rfl | ⟨hfb₂, hfb₁⟩
      · rcases List.mem_cons.1 hit with rfl | hit₂
        · exact ⟨rfl, lookupA_putA_self _ _ _⟩
        · obtain ⟨hf2, hreg2⟩ := hnew_item it hit₂
          refine ⟨hf2, ?_⟩
          rw [lookupA_putA_ne _ _ _ _ (hnew_no_k it hit₂)]
          exact hreg2
      · obtain ⟨hfb₃, hne_f⟩ := mem_eraseA_strong hfb₂
        obtain ⟨hfre, hreg⟩ := hwf.2.2.2 fb hfb₃ it hit
        refine ⟨hfre, ?_⟩
        have hbf : bucketOf p fb.1 = fb.2 := bucketOf_eq_of_mem hwf.2.1 hfb₃
        have hkne : it.key ≠ item.key := hstray fb.1 hne_f it (by rw [hbf]; exact hit)
        rw [lookupA_putA_ne _ _ _ _ hkne]
        exact hreg
  · rw [lfu_increment_eq_of_ne hE]
    have hnodup_old := lfuWF_bucket_keys_nodup hwf item.frequency
    have hnok : item.key ∉
        (eraseK lfuItem.key (bucketOf p item.frequency) item.key).map lfuItem.key :=
      not_mem_keys_eraseK hnodup_old
    refine ⟨⟨?_, ?_, ?_, ?_⟩, hkeys⟩
    · intro e he
      rcases mem_of_mem_putA he with rfl | he₂
      · rfl
      · exact hwf.1 e he₂
    · exact keys_putA_nodup _ _ (keys_putA_nodup _ _ hwf.2.1)
    · intro fb hfb
      rcases mem_putA_strong hfb with rfl | ⟨hfb₂, hfb₁⟩
      · rw [List.map_cons, List.nodup_cons]
        refine ⟨?_, hnew_nodup⟩
        intro hc
        rcases List.mem_map.1 hc with ⟨it, hit, hkey⟩
        exact hnew_no_k it hit hkey
      · rcases mem_putA_strong hfb₂ with rfl | ⟨hfb₃, hfb₄⟩
        · exact keys_eraseK_nodup _ hnodup_old
        · exact hwf.2.2.1 fb hfb₃
    · intro fb hfb it hit
      rcases mem_putA_strong hfb with rfl | ⟨hfb₂, hfb₁⟩
      · rcases List.mem_cons.1 hit with rfl | hit₂
        · exact ⟨rfl, lookupA_putA_self _ _ _⟩
        · obtain ⟨hf2, hreg2⟩ := hnew_item it hit₂
          refine ⟨hf2, ?_⟩
          rw [lookupA_putA_ne _ _ _ _ (hnew_no_k it hit₂)]
          exact hreg2
      · rcases mem_putA_strong hfb₂ with rfl | ⟨hfb₃, hfb₄⟩
        · have hit₀ : it ∈ bucketOf p item.frequency := mem_of_mem_eraseK hit
          obtain ⟨hf2, hreg2⟩ := lfuWF_bucket_item hwf hit₀
          refine ⟨hf2, ?_⟩
          have hkne : it.key ≠ item.key := by
            intro hc
            exact hnok (List.mem_map.2 ⟨it, hit, hc⟩)
          rw [lookupA_putA_ne _ _ _ _ hkne]
          exact hreg2
        · obtain ⟨hfre, hreg⟩ := hwf.2.2.2 fb hfb₃ it hit
          refine ⟨hfre, ?_⟩
          have hbf : bucketOf p fb.1 = fb.2 := bucketOf_eq_of_mem hwf.2.1 hfb₃
          have hkne : it.key ≠ item.key := hstray fb.1 hfb₄ it (by rw [hbf]; exact hit)
          rw [lookupA_putA_ne _ _ _ _ hkne]
          exact hreg

/-- `increment` preserves the minimum-bucket invariant (any state with a
registered entry). -/
theorem lfu_increment_minBucket {K T : Type} [DecidableEq K] {p : lfuPolicy K T}
    {item : lfuItem K T} (hmb : minBucketInv p) (hne : p.elements ≠ []) :
    minBucketInv (p.increment item) := by
  have hone : ∀ (fm : List (Nat × List (lfuItem K T))) (b : List (lfuItem K T)),
      (lookupA (putA fm (item.frequency + 1)
        ({ item with frequency := item.frequency + 1 } :: b)) (item.frequency + 1)).getD []
        ≠ [] := by
    intro fm b
    rw [lookupA_putA_self]
    simp
  intro hne'
  by_cases hE : eraseK lfuItem.key (bucketOf p item.frequency) item.key = []
  · rw [lfu_increment_eq_of_empty hE]
    by_cases hmf : p.minFreq = item.frequency
    · show bucketOf _ _ ≠ []
      rw [bucketOf]
      simp only [if_pos hmf, hmf]
      exact hone _ _
    · by_cases hm1 : p.minFreq = item.frequency + 1
      · show bucketOf _ _ ≠ []
        rw [bucketOf]
        rw [if_neg hmf, hm1]
        exact hone _ _
      · show bucketOf _ _ ≠ []
        rw [bucketOf]
        simp only [if_neg hmf]
        rw [lookupA_putA_ne _ _ _ _ hm1, lookupA_eraseA_ne _ _ _ hmf]
        exact hmb hne
  · rw [lfu_increment_eq_of_ne hE]
    by_cases hm1 : p.minFreq = item.frequency + 1
    · show bucketOf _ _ ≠ []
      rw [bucketOf]
      simp only [hm1]
      exact hone _ _
    · by_cases hmf : p.minFreq = item.frequency
      · show bucketOf _ _ ≠ []
        rw [bucketOf]
        rw [lookupA_putA_ne _ _ _ _ hm1]
        simp only [hmf]
        rw [lookupA_putA_self]
        exact hE
      · show bucketOf _ _ ≠ []
        rw [bucketOf]
        rw [lookupA_putA_ne _ _ _ _ hm1, lookupA_putA_ne _ _ _ _ hmf]
        exact hmb hne

/-- `Add` (re-)establishes the minimum-bucket invariant. -/
theorem lfu_Add_minBucket {K T : Type} [DecidableEq K] {p : lfuPolicy K T} {k : K} {v : T}
    (hmb : minBucketInv p) : minBucketInv (p.Add k v) := by
  cases hlk : lookupA p.elements k with
  | none =>
      rw [lfu_Add_eq_of_none hlk]
      intro _
      show bucketOf _ _ ≠ []
      rw [bucketOf]
      rw [lookupA_putA_self]
      simp
  | some it₀ =>
      rw [lfu_Add_eq_of_some hlk]
      exact lfu_increment_minBucket hmb (ne_nil_of_lookupA_isSome (by rw [hlk]; rfl))

/-- `Access` preserves the minimum-bucket invariant. -/
theorem lfu_Access_minBucket {K T : Type} [DecidableEq K] {p : lfuPolicy K T} {k : K}
    (hmb : minBucketInv p) : minBucketInv (p.Access k) := by
  cases hlk : lookupA p.elements k with
  | none => rw [lfu_Access_eq_of_none hlk]; exact hmb
  | some it₀ =>
      rw [lfu_Access_eq_of_some hlk]
      exact lfu_increment_minBucket hmb (ne_nil_of_lookupA_isSome (by rw [hlk]; rfl))

/-- `Access` preserves well-formedness, the minimum-bucket invariant and the
registered key set. -/
theorem lfu_Access_spec {K T : Type} [DecidableEq K] {p : lfuPolicy K T} {k : K}
    (hwf : lfuWF p) (hmb : minBucketInv p) :
    lfuWF (p.Access k) ∧ minBucketInv (p.Access k) ∧
    (∀ k', (lookupA (p.Access k).elements k').isSome = (lookupA p.elements k').isSome) := by
  cases hlk : lookupA p.elements k with
  | none => rw [lfu_Access_eq_of_none hlk]; exact ⟨hwf, hmb, fun _ => rfl⟩
  | some it₀ =>
      have hkey : it₀.key = k := hwf.1 (k, it₀) (lookupA_mem hlk)
      have h1 := lfu_increment_wf hwf (by rw [hkey]; exact hlk) rfl
      rw [lfu_Access_eq_of_some hlk]
      exact ⟨h1.1,
        lfu_increment_minBucket hmb (ne_nil_of_lookupA_isSome (by rw [hlk]; rfl)),
        h1.2⟩

/-- `Add` on an unregistered key preserves well-formedness, establishes the
minimum-bucket invariant, and registers exactly the new key. -/
theorem lfu_Add_new_spec {K T : Type} [DecidableEq K] {p : lfuPolicy K T} {k : K} {v : T}
    (hwf : lfuWF p) (hlk : lookupA p.elements k = none) :
    lfuWF (p.Add k v) ∧ minBucketInv (p.Add k v) ∧
    (lookupA (p.Add k v).elements k).isSome = true ∧
    (∀ k', k' ≠ k → (lookupA (p.Add k v).elements k').isSome =
                    (lookupA p.elements k').isSome) := by
  have hmb' : minBucketInv (p.Add k v) := by
    rw [lfu_Add_eq_of_none hlk]
    intro _
    show bucketOf _ _ ≠ []
    rw [bucketOf, lookupA_putA_self]
    simp
  have hnok := lfuWF_no_key hwf hlk
  rw [lfu_Add_eq_of_none hlk] at hmb' ⊢
  refine ⟨⟨?_, ?_, ?_, ?_⟩, hmb', ?_, ?_⟩
  · intro e he
    rcases mem_of_mem_putA he with rfl | he₂
    · rfl
    · exact hwf.1 e he₂
  · exact keys_putA_nodup _ _ hwf.2.1
  · intro fb hfb
    rcases mem_putA_strong hfb with rfl | ⟨hfb₂, hfb₁⟩
    · rw [List.map_cons, List.nodup_cons]
      refine ⟨?_, lfuWF_bucket_keys_nodup hwf 1⟩
      intro hc
      rcases List.mem_map.1 hc with ⟨it, hit, hkey⟩
      exact hnok 1 it hit hkey
    · exact hwf.2.2.1 fb hfb₂
  · intro fb hfb it hit
    rcases mem_putA_strong hfb with rfl | ⟨hfb₂, hfb₁⟩
    · rcases List.mem_cons.1 hit with rfl | hit₂
      · exact ⟨rfl, lookupA_putA_self _ _ _⟩
      · obtain ⟨hf2, hreg2⟩ := lfuWF_bucket_item hwf hit₂
        refine ⟨hf2, ?_⟩
        rw [lookupA_putA_ne _ _ _ _ (hnok 1 it hit₂)]
        exact hreg2
    · obtain ⟨hfre, hreg⟩ := hwf.2.2.2 fb hfb₂ it hit
      refine ⟨hfre, ?_⟩
      have hbf : bucketOf p fb.1 = fb.2 := bucketOf_eq_of_mem hwf.2.1 hfb₂
      have hkne : it.key ≠ k := hnok fb.1 it (by rw [hbf]; exact hit)
      rw [lookupA_putA_ne _ _ _ _ hkne]
      exact hreg
  · rw [lookupA_putA_self]
    rfl
  · intro k' hk'
    rw [lookupA_putA_ne _ _ _ _ hk']

/-- In a well-formed state with the minimum-bucket invariant and at least one
registered entry, `Evict` succeeds: it returns the key of the back element of
the minimum bucket — a registered key — keeps well-formedness, and
deregisters exactly that key. -/
theorem lfu_Evict_spec {K T : Type} [DecidableEq K] {p : lfuPolicy K T}
    (hwf : lfuWF p) (hmb : minBucketInv p) (hne : p.elements ≠ []) :
    ∃ (back : lfuItem K T) (p' : lfuPolicy K T),
      p.Evict = (p', some back.key) ∧
      (lookupA p.elements back.key).isSome = true ∧
      lfuWF p' ∧
      lookupA p'.elements back.key = none ∧
      (∀ k', k' ≠ back.key → lookupA p'.elements k' = lookupA p.elements k') := by
  have hbne : bucketOf p p.minFreq ≠ [] := hmb hne
  obtain ⟨back, hgl⟩ := getLast?_isSome_of_ne_nil hbne
  have hmem : back ∈ bucketOf p p.minFreq := mem_of_getLast? hgl
  obtain ⟨hbfreq, hbreg⟩ := lfuWF_bucket_item hwf hmem
  have hsplit : (bucketOf p p.minFreq).dropLast ++ [back] = bucketOf p p.minFreq :=
    dropLast_concat_of_getLast? hgl
  have hnodup := lfuWF_bucket_keys_nodup hwf p.minFreq
  have hnodup2 : ((bucketOf p p.minFreq).dropLast.map lfuItem.key ++ [back.key]).Nodup := by
    have hmapeq := congrArg (List.map lfuItem.key) hsplit
    rw [List.map_append] at hmapeq
    rw [show ([back].map lfuItem.key) = [back.key] from rfl] at hmapeq
    rw [hmapeq]
    exact hnodup
  have hnm : back.key ∉ (bucketOf p p.minFreq).dropLast.map lfuItem.key := by
    intro hc
    rcases List.nodup_append.1 hnodup2 with ⟨-, -, hdisj⟩
    exact hdisj hc (List.mem_singleton_self _)
  have hstray2 : ∀ (fb : Nat × List (lfuItem K T)), fb ∈ p.freqMap → fb.1 ≠ p.minFreq →
      ∀ it ∈ fb.2, it.key ≠ back.key := by
    intro fb hfb hne1 it hit
    have hbf : bucketOf p fb.1 = fb.2 := bucketOf_eq_of_mem hwf.2.1 hfb
    exact lfuWF_no_stray hwf hbreg (by rw [hbfreq]; exact hne1) it (by rw [hbf]; exact hit)
  by_cases hD : (bucketOf p p.minFreq).dropLast.isEmpty
  · refine ⟨back, { minFreq := p.minFreq, elements := eraseA p.elements back.key,
                    freqMap := eraseA p.freqMap p.minFreq }, ?_,
            (by rw [hbreg]; rfl), ⟨?_, ?_, ?_, ?_⟩, lookupA_eraseA_self _ _,
            fun k' hk' => lookupA_eraseA_ne _ _ _ hk'⟩
    · rw [lfu_Evict_eq_of_some hgl, if_pos hD]
    · intro e he
      exact hwf.1 e (mem_of_mem_eraseA he)
    · exact keys_eraseA_nodup _ hwf.2.1
    · intro fb hfb
      exact hwf.2.2.1 fb (mem_of_mem_eraseA hfb)
    · intro fb hfb it hit
      obtain ⟨hfb₂, hne1⟩ := mem_eraseA_strong hfb
      obtain ⟨hfre, hreg⟩ := hwf.2.2.2 fb hfb₂ it hit
      refine ⟨hfre, ?_⟩
      rw [lookupA_eraseA_ne _ _ _ (hstray2 fb hfb₂ hne1 it hit)]
      exact hreg
  · refine ⟨back, { minFreq := p.minFreq, elements := eraseA p.elements back.key,
                    freqMap := putA p.freqMap p.minFreq (bucketOf p p.minFreq).dropLast },
            ?_,
            (by rw [hbreg]; rfl), ⟨?_, ?_, ?_, ?_⟩, lookupA_eraseA_self _ _,
            fun k' hk' => lookupA_eraseA_ne _ _ _ hk'⟩
    · rw [lfu_Evict_eq_of_some hgl, if_neg hD]
    · intro e he
      exact hwf.1 e (mem_of_mem_eraseA he)
    · exact keys_putA_nodup _ _ hwf.2.1
    · intro fb hfb
      rcases mem_putA_strong hfb with rfl | ⟨hfb₂, hfb₁⟩
      · exact (List.nodup_append.1 hnodup2).1
      · exact hwf.2.2.1 fb hfb₂
    · intro fb hfb it hit
      rcases mem_putA_strong hfb with rfl | ⟨hfb₂, hfb₁⟩
      · have hit₀ : it ∈ bucketOf p p.minFreq := by
          rw [← hsplit]
          exact List.mem_append.2 (Or.inl hit)
        obtain ⟨hfre, hreg⟩ := lfuWF_bucket_item hwf hit₀
        refine ⟨hfre, ?_⟩
        have hkne : it.key ≠ back.key := by
          intro hc
          exact hnm (List.mem_map.2 ⟨it, hit, hc⟩)
        rw [lookupA_eraseA_ne _ _ _ hkne]
        exact hreg
      · obtain ⟨hfre, hreg⟩ := hwf.2.2.2 fb hfb₂ it hit
        refine ⟨hfre, ?_⟩
        rw [lookupA_eraseA_ne _ _ _ (hstray2 fb hfb₂ hfb₁ it hit)]
        exact hreg

/-! ### Branch equations for `LocalCache.SetEv` -/

theorem SetEv_eq_of_some {K T S : Type} [DecidableEq K] {P : EvictionPolicy K T S}
    {c : LocalCache K T S} {k : K} {v v₀ : T} (h : lookupA c.store k = some v₀) :
    LocalCache.SetEv P c k v =
      ({ c with store := putA c.store k v, policyState := P.access c.policyState k },
       none) := by
  simp only [LocalCache.SetEv, h]

theorem SetEv_eq_of_none_noevict {K T S : Type} [DecidableEq K] {P : EvictionPolicy K T S}
    {c : LocalCache K T S} {k : K} {v : T} (h : lookupA c.store k = none)
    (hsmall : ¬ c.capacity ≤ c.store.length) :
    LocalCache.SetEv P c k v =
      ({ store := putA c.store k v, policyState := P.add c.policyState k v,
         capacity := c.capacity }, none) := by
  simp only [LocalCache.SetEv, h, if_neg hsmall]

theorem SetEv_eq_of_none_evict {K T S : Type} [DecidableEq K] {P : EvictionPolicy K T S}
    {c : LocalCache K T S} {k : K} {v : T} {ps' : S} {ek : K}
    (h : lookupA c.store k = none) (hbig : c.capacity ≤ c.store.length)
    (hev : P.evict c.policyState = (ps', some ek)) :
    LocalCache.SetEv P c k v =
      ({ store := putA (eraseA c.store ek) k v, policyState := P.add ps' k v,
         capacity := c.capacity }, some ek) := by
  simp only [LocalCache.SetEv, h, if_pos hbig, hev]

theorem SetEv_eq_of_none_evict_fail {K T S : Type} [DecidableEq K] {P : EvictionPolicy K T S}
    {c : LocalCache K T S} {k : K} {v : T} {ps' : S}
    (h : lookupA c.store k = none) (hbig : c.capacity ≤ c.store.length)
    (hev : P.evict c.policyState = (ps', none)) :
    LocalCache.SetEv P c k v =
      ({ store := putA c.store k v, policyState := P.add ps' k v,
         capacity := c.capacity }, none) := by
  simp only [LocalCache.SetEv, h, if_pos hbig, hev]

theorem capacity_SetEv {K T S : Type} [DecidableEq K] {P : EvictionPolicy K T S}
    {c : LocalCache K T S} {k : K} {v : T} :
    (LocalCache.SetEv P c k v).1.capacity = c.capacity := by
  cases hlk : lookupA c.store k with
  | some v₀ => rw [SetEv_eq_of_some hlk]
  | none =>
      by_cases hbig : c.capacity ≤ c.store.length
      · rcases hev : P.evict c.policyState with ⟨ps', oek⟩
        cases oek with
        | some ek => rw [SetEv_eq_of_none_evict hlk hbig hev]
        | none => rw [SetEv_eq_of_none_evict_fail hlk hbig hev]
      · rw [SetEv_eq_of_none_noevict hlk hbig]

theorem runSetsEv_nil {K T S : Type} [DecidableEq K] {P : EvictionPolicy K T S}
    {c : LocalCache K T S} : runSetsEv P c [] = (c, []) := rfl

theorem runSetsEv_cons {K T S : Type} [DecidableEq K] {P : EvictionPolicy K T S}
    {c : LocalCache K T S} {k : K} {v : T} {rest : List (K × T)} :
    runSetsEv P c ((k, v) :: rest) =
      ((runSetsEv P (LocalCache.SetEv P c k v).1 rest).1,
       (LocalCache.SetEv P c k v).2.toList ++
         (runSetsEv P (LocalCache.SetEv P c k v).1 rest).2) := rfl

theorem capacity_runSetsEv {K T S : Type} [DecidableEq K] {P : EvictionPolicy K T S}
    {c : LocalCache K T S} {ks : List (K × T)} :
    (runSetsEv P c ks).1.capacity = c.capacity := by
  induction ks generalizing c with
  | nil => rfl
  | cons kv rest ih =>
      obtain ⟨k, v⟩ := kv
      rw [runSetsEv_cons]
      exact (ih (c := (LocalCache.SetEv P c k v).1)).trans capacity_SetEv

/-! ### Projection equations of the two policy records -/

theorem lruEP_add {K T : Type} [DecidableEq K] :
    (lruEvictionPolicy K T).add = lruPolicy.Add := rfl

theorem lruEP_access {K T : Type} [DecidableEq K] :
    (lruEvictionPolicy K T).access = lruPolicy.Access := rfl

theorem lruEP_evict {K T : Type} [DecidableEq K] :
    (lruEvictionPolicy K T).evict = lruPolicy.Evict := rfl

theorem lfuEP_add {K T : Type} [DecidableEq K] :
    (lfuEvictionPolicy K T).add = lfuPolicy.Add := rfl

theorem lfuEP_access {K T : Type} [DecidableEq K] :
    (lfuEvictionPolicy K T).access = lfuPolicy.Access := rfl

theorem lfuEP_evict {K T : Type} [DecidableEq K] :
    (lfuEvictionPolicy K T).evict = lfuPolicy.Evict := rfl

/-! ### Further `hasK` and `dropLast` helpers -/

theorem hasK_cons_self {A K : Type} [DecidableEq K] {f : A → K} {a : A} {l : List A} {k : K}
    (h : f a = k) : hasK f (a :: l) k = true := by
  rw [hasK, findK_cons, if_pos h]
  rfl

theorem hasK_cons_ne {A K : Type} [DecidableEq K] {f : A → K} {a : A} {l : List A} {k : K}
    (h : f a ≠ k) : hasK f (a :: l) k = hasK f l k := by
  rw [hasK, findK_cons, if_neg h]
  rfl

theorem hasK_eraseK_ne {A K : Type} [DecidableEq K] {f : A → K} {l : List A} {k k' : K}
    (h : k' ≠ k) : hasK f (eraseK f l k) k' = hasK f l k' := by
  rw [hasK, findK_eraseK_ne _ _ _ _ h]
  rfl

theorem hasK_eq_of_mem_iff {A K : Type} [DecidableEq K] {f : A → K} {l₁ l₂ : List A} {k : K}
    (h : k ∈ l₁.map f ↔ k ∈ l₂.map f) : hasK f l₁ k = hasK f l₂ k := by
  by_cases hm : k ∈ l₁.map f
  · rw [hasK_of_mem_keys hm, hasK_of_mem_keys (h.1 hm)]
  · rw [hasK_eq_false_of_not_mem hm, hasK_eq_false_of_not_mem (fun hc => hm (h.2 hc))]

theorem dropLast_keys_facts {A K : Type} {f : A → K} {l : List A} {a : A}
    (hnd : (l.map f).Nodup) (hgl : l.getLast? = some a) :
    (l.dropLast.map f).Nodup ∧ f a ∉ l.dropLast.map f := by
  have hsplit := dropLast_concat_of_getLast? hgl
  have hmapeq := congrArg (List.map f) hsplit
  rw [List.map_append] at hmapeq
  rw [show ([a].map f) = [f a] from rfl] at hmapeq
  have h2 : (l.dropLast.map f ++ [f a]).Nodup := by
    rw [hmapeq]
    exact hnd
  rcases List.nodup_append.1 h2 with ⟨h3, -, hdisj⟩
  exact ⟨h3, fun hc => hdisj hc (List.mem_singleton_self _)⟩

/-! ### Branch equations for the LRU operations -/

theorem lru_Add_eq_of_true {K T : Type} [DecidableEq K] {p : lruPolicy K T} {k : K} {v : T}
    (ht : hasK lruItem.key p.ll k = true) :
    p.Add k v = { p with ll := ⟨k, v⟩ :: eraseK lruItem.key p.ll k } := by
  simp only [lruPolicy.Add, ht, if_true]

theorem lru_Add_eq_of_false {K T : Type} [DecidableEq K] {p : lruPolicy K T} {k : K} {v : T}
    (ht : hasK lruItem.key p.ll k = false) :
    p.Add k v = { p with ll := ⟨k, v⟩ :: p.ll } := by
  simp only [lruPolicy.Add, ht, Bool.false_eq_true, if_false]

theorem lru_Access_eq_of_some {K T : Type} [DecidableEq K] {p : lruPolicy K T} {k : K}
    {it : lruItem K T} (hf : findK lruItem.key p.ll k = some it) :
    p.Access k = { p with ll := it :: eraseK lruItem.key p.ll k } := by
  simp only [lruPolicy.Access, hf]

theorem lru_Access_eq_of_none {K T : Type} [DecidableEq K] {p : lruPolicy K T} {k : K}
    (hf : findK lruItem.key p.ll k = none) : p.Access k = p := by
  simp only [lruPolicy.Access, hf]

theorem lru_Evict_eq_of_some {K T : Type} {p : lruPolicy K T} {oldest : lruItem K T}
    (h : p.ll.getLast? = some oldest) :
    p.Evict = ({ p with ll := p.ll.dropLast }, some oldest.key) := by
  simp only [lruPolicy.Evict, h]

theorem lru_Evict_eq_of_none {K T : Type} {p : lruPolicy K T}
    (h : p.ll.getLast? = none) : p.Evict = (p, none) := by
  simp only [lruPolicy.Evict, h]

theorem InvLFU_SetEv {K T : Type} [DecidableEq K] {c : LocalCache K T (lfuPolicy K T)}
    (h : InvLFU c) (k : K) (v : T) :
    InvLFU (LocalCache.SetEv (lfuEvictionPolicy K T) c k v).1 := by
  obtain ⟨hcap, hnd, hlen, hsync, hwf, hmb⟩ := h
  cases hlk : lookupA c.store k with
  | some v₀ =>
      rw [SetEv_eq_of_some hlk]
      have hacc := lfu_Access_spec (p := c.policyState) (k := k) hwf hmb
      rw [lfuEP_access]
      refine ⟨hcap, keys_putA_nodup _ _ hnd, ?_, ?_, hacc.1, hacc.2.1⟩
      · rw [length_putA_of_mem v hnd (mem_keys_of_lookupA_isSome (by rw [hlk]; rfl))]
        exact hlen
      · intro k'
        by_cases hk' : k' = k
        · subst hk'
          rw [lookupA_putA_self, hacc.2.2 k', ← hsync k', hlk]
          rfl
        · rw [lookupA_putA_ne _ _ _ _ hk', hacc.2.2 k', hsync k']
  | none =>
      have hels : lookupA c.policyState.elements k = none := by
        have hs := (hsync k).symm
        rw [hlk] at hs
        cases hq : lookupA c.policyState.elements k with
        | none => rfl
        | some x => rw [hq] at hs; simp at hs
      have hknstore : k ∉ c.store.map Prod.fst := by
        intro hm
        have := lookupA_isSome_of_mem_keys hm
        rw [hlk] at this
        simp at this
      by_cases hbig : c.capacity ≤ c.store.length
      · have hpos : 0 < c.store.length := lt_of_lt_of_le hcap hbig
        have hneel : c.policyState.elements ≠ [] := by
          cases hst : c.store with
          | nil => rw [hst] at hpos; simp at hpos
          | cons q rest =>
              have hq : (lookupA c.store q.1).isSome = true := by
                rw [hst]
                obtain ⟨q1, q2⟩ := q
                simp [lookupA_cons]
              rw [hsync q.1] at hq
              exact ne_nil_of_lookupA_isSome hq
        obtain ⟨back, p', hev, hbsome, hwf', hnone', hsame'⟩ := lfu_Evict_spec hwf hmb hneel
        rw [SetEv_eq_of_none_evict hlk hbig
          (show (lfuEvictionPolicy K T).evict c.policyState = (p', some back.key) from hev)]
        rw [lfuEP_add]
        have hbk_store : (lookupA c.store back.key).isSome = true := by
          rw [hsync back.key]
          exact hbsome
        have hkne_bk : k ≠ back.key := by
          intro hc
          rw [← hc, hlk] at hbk_store
          simp at hbk_store
        have hels' : lookupA p'.elements k = none := by
          rw [hsame' k hkne_bk]
          exact hels
        have hadd := lfu_Add_new_spec (k := k) (v := v) hwf' hels'
        have hbkmem : back.key ∈ c.store.map Prod.fst := mem_keys_of_lookupA_isSome hbk_store
        have hlen_erase := length_eraseA_of_mem hnd hbkmem
        have hknerase : k ∉ (eraseA c.store back.key).map Prod.fst := by
          intro hm
          exact hknstore (keys_eraseA_subset _ _ hm)
        refine ⟨hcap, keys_putA_nodup _ _ (keys_eraseA_nodup _ hnd), ?_, ?_, hadd.1, hadd.2.1⟩
        · rw [length_putA_of_not_mem v hknerase]
          show (eraseA c.store back.key).length + 1 ≤ c.capacity
          omega
        · intro k'
          by_cases hk' : k' = k
          · subst hk'
            rw [lookupA_putA_self, hadd.2.2.1]
            rfl
          · rw [lookupA_putA_ne _ _ _ _ hk', hadd.2.2.2 k' hk']
            by_cases hbk' : k' = back.key
            · subst hbk'
              rw [lookupA_eraseA_self, hnone']
              rfl
            · rw [lookupA_eraseA_ne _ _ _ hbk', hsame' k' hbk', hsync k']
      · rw [SetEv_eq_of_none_noevict hlk hbig]
        rw [lfuEP_add]
        have hadd := lfu_Add_new_spec (k := k) (v := v) hwf hels
        refine ⟨hcap, keys_putA_nodup _ _ hnd, ?_, ?_, hadd.1, hadd.2.1⟩
        · rw [length_putA_of_not_mem v hknstore]
          show c.store.length + 1 ≤ c.capacity
          omega
        · intro k'
          by_cases hk' : k' = k
          · subst hk'
            rw [lookupA_putA_self, hadd.2.2.1]
            rfl
          · rw [lookupA_putA_ne _ _ _ _ hk', hadd.2.2.2 k' hk', hsync k']

theorem InvLFU_run {K T : Type} [DecidableEq K] {c : LocalCache K T (lfuPolicy K T)}
    (h : InvLFU c) (ks : List (K × T)) :
    InvLFU (runSetsEv (lfuEvictionPolicy K T) c ks).1 := by
  induction ks generalizing c with
  | nil => exact h
  | cons kv rest ih =>
      obtain ⟨k, v⟩ := kv
      rw [runSetsEv_cons]
      exact ih (InvLFU_SetEv h k v)

theorem InvLFU_new {K T : Type} [DecidableEq K] (capacity : Int) :
    InvLFU (newLocalCacheLFU K T capacity) := by
  refine ⟨?_, by simp [newLocalCacheLFU], by simp [newLocalCacheLFU], fun k => rfl,
          ⟨?_, ?_, ?_, ?_⟩, ?_⟩
  · show 1 ≤ normCapacity capacity
    rw [normCapacity]
    split <;> omega
  · intro e he
    exact absurd he (List.not_mem_nil e)
  · simp [newLocalCacheLFU, newLFUPolicy]
  · intro fb hfb
    exact absurd hfb (List.not_mem_nil fb)
  · intro fb hfb
    exact absurd hfb (List.not_mem_nil fb)
  · intro hc
    exact absurd rfl hc

theorem InvLRU_SetEv {K T : Type} [DecidableEq K] {c : LocalCache K T (lruPolicy K T)}
    (h : InvLRU c) (k : K) (v : T) :
    InvLRU (LocalCache.SetEv (lruEvictionPolicy K T) c k v).1 := by
  obtain ⟨hcap, hnd, hlen, hllnd, hsync⟩ := h
  cases hlk : lookupA c.store k with
  | some v₀ =>
      rw [SetEv_eq_of_some hlk]
      rw [lruEP_access]
      have hk : hasK lruItem.key c.policyState.ll k = true := by
        rw [← hsync k, hlk]
        rfl
      obtain ⟨it, hf⟩ := Option.isSome_iff_exists.1 hk
      obtain ⟨hmem, hkey⟩ := findK_some hf
      rw [lru_Access_eq_of_some hf]
      refine ⟨hcap, keys_putA_nodup _ _ hnd, ?_, ?_, ?_⟩
      · rw [length_putA_of_mem v hnd (mem_keys_of_lookupA_isSome (by rw [hlk]; rfl))]
        exact hlen
      · rw [List.map_cons, List.nodup_cons, hkey]
        exact ⟨not_mem_keys_eraseK hllnd, keys_eraseK_nodup _ hllnd⟩
      · intro k'
        by_cases hk' : k' = k
        · subst hk'
          rw [lookupA_putA_self, hasK_cons_self hkey]
          rfl
        · rw [lookupA_putA_ne _ _ _ _ hk',
              hasK_cons_ne (by rw [hkey]; exact fun hc => hk' hc.symm),
              hasK_eraseK_ne hk', hsync k']
  | none =>
      have hkf : hasK lruItem.key c.policyState.ll k = false := by
        rw [← hsync k, hlk]
        rfl
      have hknll : k ∉ c.policyState.ll.map lruItem.key := by
        intro hm
        rw [hasK_of_mem_keys hm] at hkf
        exact Bool.noConfusion hkf
      have hknstore : k ∉ c.store.map Prod.fst := by
        intro hm
        have := lookupA_isSome_of_mem_keys hm
        rw [hlk] at this
        simp at this
      by_cases hbig : c.capacity ≤ c.store.length
      · have hpos : 0 < c.store.length := lt_of_lt_of_le hcap hbig
        have hlln : c.policyState.ll ≠ [] := by
          cases hst : c.store with
          | nil => rw [hst] at hpos; simp at hpos
          | cons q rest =>
              intro hc
              have hq : (lookupA c.store q.1).isSome = true := by
                rw [hst]
                obtain ⟨q1, q2⟩ := q
                simp [lookupA_cons]
              rw [hsync q.1, hc] at hq
              rw [hasK, findK_nil] at hq
              exact Bool.noConfusion hq
        obtain ⟨oldest, hgl⟩ := getLast?_isSome_of_ne_nil hlln
        rw [SetEv_eq_of_none_evict hlk hbig
          (show (lruEvictionPolicy K T).evict c.policyState =
            ({ c.policyState with ll := c.policyState.ll.dropLast }, some oldest.key) from
            lru_Evict_eq_of_some hgl)]
        rw [lruEP_add]
        obtain ⟨hdnd, hdnm⟩ := dropLast_keys_facts hllnd hgl
        have hmemll : oldest ∈ c.policyState.ll := mem_of_getLast? hgl
        have hbk_store : (lookupA c.store oldest.key).isSome = true := by
          rw [hsync oldest.key]
          exact hasK_of_mem hmemll
        have hkne_bk : k ≠ oldest.key := by
          intro hc
          rw [← hc, hlk] at hbk_store
          simp at hbk_store
        have hkdrop : k ∉ c.policyState.ll.dropLast.map lruItem.key := by
          intro hm
          refine hknll ?_
          have hsplit := dropLast_concat_of_getLast? hgl
          rw [← hsplit, List.map_append]
          exact List.mem_append_left _ hm
        have hadd : lruPolicy.Add { c.policyState with ll := c.policyState.ll.dropLast } k v
            = { c.policyState with ll := ⟨k, v⟩ :: c.policyState.ll.dropLast } :=
          lru_Add_eq_of_false (hasK_eq_false_of_not_mem hkdrop)
        rw [hadd]
        have hbkmem : oldest.key ∈ c.store.map Prod.fst := mem_keys_of_lookupA_isSome hbk_store
        have hlen_erase := length_eraseA_of_mem hnd hbkmem
        have hknerase : k ∉ (eraseA c.store oldest.key).map Prod.fst := by
          intro hm
          exact hknstore (keys_eraseA_subset _ _ hm)
        refine ⟨hcap, keys_putA_nodup _ _ (keys_eraseA_nodup _ hnd), ?_, ?_, ?_⟩
        · rw [length_putA_of_not_mem v hknerase]
          show (eraseA c.store oldest.key).length + 1 ≤ c.capacity
          omega
        · rw [List.map_cons, List.nodup_cons]
          exact ⟨hkdrop, hdnd⟩
        · intro k'
          by_cases hk' : k' = k
          · subst hk'
            rw [lookupA_putA_self, hasK_cons_self rfl]
            rfl
          · rw [lookupA_putA_ne _ _ _ _ hk',
                hasK_cons_ne (fun hc => hk' hc.symm)]
            by_cases hbk' : k' = oldest.key
            · subst hbk'
              rw [lookupA_eraseA_self, hasK_eq_false_of_not_mem hdnm]
              rfl
            · rw [lookupA_eraseA_ne _ _ _ hbk', hsync k']
              refine hasK_eq_of_mem_iff ?_
              have hsplit := dropLast_concat_of_getLast? hgl
              have hmapeq : List.map lruItem.key c.policyState.ll
                  = List.map lruItem.key c.policyState.ll.dropLast ++ [oldest.key] := by
                conv_lhs => rw [← hsplit]
                rw [List.map_append]
                rfl
              constructor
              · intro hm
                rw [hmapeq] at hm
                rcases List.mem_append.1 hm with hm | hm
                · exact hm
                · rw [List.mem_singleton] at hm
                  exact absurd hm hbk'
              · intro hm
                rw [hmapeq]
                exact List.mem_append_left _ hm
      · rw [SetEv_eq_of_none_noevict hlk hbig]
        rw [lruEP_add, lru_Add_eq_of_false hkf]
        refine ⟨hcap, keys_putA_nodup _ _ hnd, ?_, ?_, ?_⟩
        · rw [length_putA_of_not_mem v hknstore]
          show c.store.length + 1 ≤ c.capacity
          omega
        · rw [List.map_cons, List.nodup_cons]
          exact ⟨hknll, hllnd⟩
        · intro k'
          by_cases hk' : k' = k
          · subst hk'
            rw [lookupA_putA_self, hasK_cons_self rfl]
            rfl
          · rw [lookupA_putA_ne _ _ _ _ hk',
                hasK_cons_ne (fun hc => hk' hc.symm), hsync k']

theorem InvLRU_run {K T : Type} [DecidableEq K] {c : LocalCache K T (lruPolicy K T)}
    (h : InvLRU c) (ks : List (K × T)) :
    InvLRU (runSetsEv (lruEvictionPolicy K T) c ks).1 := by
  induction ks generalizing c with
  | nil => exact h
  | cons kv rest ih =>
      obtain ⟨k, v⟩ := kv
      rw [runSetsEv_cons]
      exact ih (InvLRU_SetEv h k v)

theorem InvLRU_new {K T : Type} [DecidableEq K] (capacity : Int) :
    InvLRU (newLocalCacheLRU K T capacity) := by
  refine ⟨?_, by simp [newLocalCacheLRU], by simp [newLocalCacheLRU],
          by simp [newLocalCacheLRU, newLRUPolicy], fun k => rfl⟩
  show 1 ≤ normCapacity capacity
  rw [normCapacity]
  split <;> omega

/-! ### The LRU insertion-order law -/

theorem eraseA_append_of_not_mem_left {K V : Type} [DecidableEq K]
    {xs : List (K × V)} (ys : List (K × V)) {k : K} (h : k ∉ xs.map Prod.fst) :
    eraseA (xs ++ ys) k = xs ++ eraseA ys k := by
  induction xs with
  | nil => rfl
  | cons p rest ih =>
      obtain ⟨k₀, v₀⟩ := p
      rw [List.map_cons, List.mem_cons] at h
      push_neg at h
      rw [List.cons_append, eraseA_cons, if_neg (fun hc => h.1 hc.symm), ih h.2,
          List.cons_append]

theorem keys_of_items {K T : Type} (cur : List (K × T)) :
    (cur.map (fun q => lruItem.mk q.1 q.2)).map lruItem.key = cur.map Prod.fst := by
  induction cur with
  | nil => rfl
  | cons q rest ih => simp [ih]

/-- Running a block of `Set` calls on a canonical LRU state: the store and the
recency list stay canonical and the evicted keys are exactly the oldest
`cur.length + rest.length - capacity` keys, in insertion order. -/
theorem lru_run_spec {K T : Type} [DecidableEq K] (capacity : Nat) (hcap : 1 ≤ capacity) :
    ∀ (rest cur : List (K × T)) (c : LocalCache K T (lruPolicy K T)),
      c.store = cur.reverse →
      c.policyState.ll = (cur.map (fun q => lruItem.mk q.1 q.2)).reverse →
      c.capacity = capacity →
      ((cur ++ rest).map Prod.fst).Nodup →
      cur.length ≤ capacity →
      (runSetsEv (lruEvictionPolicy K T) c rest).2
        = ((cur ++ rest).map Prod.fst).take (cur.length + rest.length - capacity) := by
  intro rest
  induction rest with
  | nil =>
      intro cur c hst hll hcapc hnd hle
      rw [runSetsEv_nil]
      have h0 : cur.length + ([] : List (K × T)).length - capacity = 0 := by
        rw [List.length_nil]
        omega
      rw [h0, List.take_zero]
  | cons q rest ih =>
      obtain ⟨k, v⟩ := q
      intro cur c hst hll hcapc hnd hle
      have hnd' := hnd
      rw [List.map_append, List.map_cons] at hnd'
      rcases List.nodup_append.1 hnd' with ⟨hndcur, hndkr, hdisj⟩
      have hkcur : k ∉ cur.map Prod.fst := fun hm => hdisj hm (List.mem_cons_self _ _)
      have hlknone : lookupA c.store k = none := by
        rw [hst]
        apply lookupA_eq_none_of_not_mem_keys
        rw [List.map_reverse, List.mem_reverse]
        exact hkcur
      have hndtail : ((cur ++ [(k, v)] ++ rest).map Prod.fst).Nodup := by
        rw [List.append_assoc, List.singleton_append]
        exact hnd
      rw [runSetsEv_cons]
      by_cases hfull : capacity ≤ cur.length
      · have hcl : cur.length = capacity := le_antisymm hle hfull
        cases cur with
        | nil => rw [List.length_nil] at hcl; omega
        | cons c0 ct =>
        obtain ⟨c01, c02⟩ := c0
        rw [List.length_cons] at hcl
        have hc0ct : c01 ∉ ct.map Prod.fst := by
          rw [List.map_cons, List.nodup_cons] at hndcur
          exact hndcur.1
        have hkct : k ∉ ct.map Prod.fst := by
          rw [List.map_cons, List.mem_cons] at hkcur
          push_neg at hkcur
          exact hkcur.2
        have hgl : c.policyState.ll.getLast? = some (lruItem.mk c01 c02) := by
          rw [hll, List.map_cons, List.reverse_cons, List.getLast?_concat]
        have hbig : c.capacity ≤ c.store.length := by
          rw [hcapc, hst, List.length_reverse, List.length_cons]
          omega
        have hev := lru_Evict_eq_of_some hgl
        have hs := SetEv_eq_of_none_evict (v := v) hlknone hbig
          (show (lruEvictionPolicy K T).evict c.policyState = _ from hev)
        have h2 : (LocalCache.SetEv (lruEvictionPolicy K T) c k v).2 = some c01 := by
          rw [hs]
        have hs_store : (LocalCache.SetEv (lruEvictionPolicy K T) c k v).1.store
            = (ct ++ [(k, v)]).reverse := by
          rw [hs]
          show putA (eraseA c.store c01) k v = _
          rw [hst, List.reverse_cons]
          rw [eraseA_append_of_not_mem_left _
            (by rw [List.map_reverse, List.mem_reverse]; exact hc0ct)]
          rw [show eraseA [((c01 : K), (c02 : T))] c01 = [] from by simp [eraseA]]
          rw [List.append_nil, putA,
              eraseA_of_not_mem_keys (by rw [List.map_reverse, List.mem_reverse]; exact hkct),
              List.reverse_append]
          rfl
        have hdropl : c.policyState.ll.dropLast
            = (ct.map (fun q => lruItem.mk q.1 q.2)).reverse := by
          rw [hll, List.map_cons, List.reverse_cons, List.dropLast_concat]
        have hs_ll : (LocalCache.SetEv (lruEvictionPolicy K T) c k v).1.policyState.ll
            = ((ct ++ [(k, v)]).map (fun q => lruItem.mk q.1 q.2)).reverse := by
          rw [hs]
          show ((lruEvictionPolicy K T).add
            { c.policyState with ll := c.policyState.ll.dropLast } k v).ll = _
          rw [lruEP_add]
          have hkll : hasK lruItem.key
              ({ c.policyState with ll := c.policyState.ll.dropLast }).ll k = false := by
            show hasK lruItem.key c.policyState.ll.dropLast k = false
            rw [hdropl]
            apply hasK_eq_false_of_not_mem
            rw [List.map_reverse, List.mem_reverse, keys_of_items]
            exact hkct
          rw [lru_Add_eq_of_false hkll]
          show (⟨k, v⟩ :: c.policyState.ll.dropLast) = _
          rw [hdropl, List.map_append, List.reverse_append]
          rfl
        have hih := ih (ct ++ [(k, v)]) (LocalCache.SetEv (lruEvictionPolicy K T) c k v).1
          hs_store hs_ll (by rw [capacity_SetEv, hcapc])
          (by
            rw [show ((ct ++ [(k, v)]) ++ rest) = (ct ++ (k, v) :: rest) from by
              rw [List.append_assoc, List.singleton_append]]
            simp only [List.cons_append, List.map_cons, List.nodup_cons] at hnd
            exact hnd.2)
          (by rw [List.length_append, List.length_singleton]; omega)
        have hamount1 : (ct ++ [(k, v)]).length + rest.length - capacity = rest.length := by
          rw [List.length_append, List.length_singleton]
          omega
        rw [hamount1] at hih
        rw [h2, hih]
        show c01 :: (((ct ++ [(k, v)]) ++ rest).map Prod.fst).take rest.length = _
        rw [show ((ct ++ [(k, v)]) ++ rest) = (ct ++ (k, v) :: rest) from by
          rw [List.append_assoc, List.singleton_append]]
        rw [show (((c01, c02) :: ct) ++ (k, v) :: rest) = ((c01, c02) :: (ct ++ (k, v) :: rest))
          from rfl]
        rw [List.map_cons]
        rw [show ((c01, c02) :: ct).length + ((k, v) :: rest).length - capacity
            = rest.length + 1 from by
          rw [List.length_cons, List.length_cons]
          omega]
        rw [List.take_succ_cons]
      · have hkf : hasK lruItem.key c.policyState.ll k = false := by
          rw [hll]
          apply hasK_eq_false_of_not_mem
          rw [List.map_reverse, List.mem_reverse, keys_of_items]
          exact hkcur
        have hsmall : ¬ c.capacity ≤ c.store.length := by
          rw [hcapc, hst, List.length_reverse]
          omega
        have hs := SetEv_eq_of_none_noevict (P := lruEvictionPolicy K T) (v := v)
          hlknone hsmall
        have h2 : (LocalCache.SetEv (lruEvictionPolicy K T) c k v).2 = none := by
          rw [hs]
        have hs_store : (LocalCache.SetEv (lruEvictionPolicy K T) c k v).1.store
            = (cur ++ [(k, v)]).reverse := by
          rw [hs]
          show putA c.store k v = _
          rw [hst, putA,
              eraseA_of_not_mem_keys (by rw [List.map_reverse, List.mem_reverse]; exact hkcur),
              List.reverse_append]
          rfl
        have hs_ll : (LocalCache.SetEv (lruEvictionPolicy K T) c k v).1.policyState.ll
            = ((cur ++ [(k, v)]).map (fun q => lruItem.mk q.1 q.2)).reverse := by
          rw [hs]
          show ((lruEvictionPolicy K T).add c.policyState k v).ll = _
          rw [lruEP_add, lru_Add_eq_of_false hkf]
          show (⟨k, v⟩ :: c.policyState.ll) = _
          rw [hll, List.map_append, List.reverse_append]
          rfl
        have hih := ih (cur ++ [(k, v)]) (LocalCache.SetEv (lruEvictionPolicy K T) c k v).1
          hs_store hs_ll (by rw [capacity_SetEv, hcapc])
          (by
            rw [show ((cur ++ [(k, v)]) ++ rest) = (cur ++ (k, v) :: rest) from by
              rw [List.append_assoc, List.singleton_append]]
            exact hnd)
          (by rw [List.length_append, List.length_singleton]; omega)
        rw [h2, hih]
        rw [show ((cur ++ [(k, v)]) ++ rest) = (cur ++ (k, v) :: rest) from by
          rw [List.append_assoc, List.singleton_append]]
        rw [show (cur ++ [(k, v)]).length + rest.length - capacity
            = cur.length + ((k, v) :: rest).length - capacity from by
          rw [List.length_append, List.length_singleton, List.length_cons]
          omega]
        rfl

/-! ### The claims -/

/-- Claim C1: for a `LocalCache` of capacity `C` built by `NewLocalCache`, with
either the LRU or the LFU policy, after any sequence of `Set` calls the number
of resident entries (keys in the store map) never exceeds the normalised
capacity.  Under `Set`-only traffic the eviction check always finds a
candidate, so the bound holds outright and the documented soft-cap exception
never fires. -/
theorem localCache_capacity_bound {K T : Type} [DecidableEq K] (capacity : Int)
    (ks : List (K × T)) :
    (runSetsEv (lruEvictionPolicy K T) (newLocalCacheLRU K T capacity) ks).1.store.length
      ≤ normCapacity capacity ∧
    (runSetsEv (lfuEvictionPolicy K T) (newLocalCacheLFU K T capacity) ks).1.store.length
      ≤ normCapacity capacity := by
  constructor
  · have h := (InvLRU_run (InvLRU_new capacity) ks).2.2.1
    have hc : (runSetsEv (lruEvictionPolicy K T) (newLocalCacheLRU K T capacity) ks).1.capacity
        = (newLocalCacheLRU K T capacity).capacity := capacity_runSetsEv
    rw [hc] at h
    exact h
  · have h := (InvLFU_run (InvLFU_new capacity) ks).2.2.1
    have hc : (runSetsEv (lfuEvictionPolicy K T) (newLocalCacheLFU K T capacity) ks).1.capacity
        = (newLocalCacheLFU K T capacity).capacity := capacity_runSetsEv
    rw [hc] at h
    exact h

/-- Claim C5: for an LRU `LocalCache` of positive capacity `C`, inserting any
sequence of pairwise distinct keys in order via `Set`, with no intervening
reads, evicts exactly the first `n - C` keys, in insertion order. -/
theorem lru_insertion_order_law {K T : Type} [DecidableEq K] (capacity : Int)
    (hcap : 0 < capacity) (ks : List (K × T)) (hnd : (ks.map Prod.fst).Nodup) :
    (runSetsEv (lruEvictionPolicy K T) (newLocalCacheLRU K T capacity) ks).2
      = (ks.map Prod.fst).take (ks.length - capacity.toNat) := by
  have h := lru_run_spec (K := K) (T := T) capacity.toNat (by omega) ks []
    (newLocalCacheLRU K T capacity) rfl rfl
    (by
      show normCapacity capacity = capacity.toNat
      rw [normCapacity, if_neg (by omega)])
    (by rw [List.nil_append]; exact hnd)
    (by simp)
  rw [List.nil_append, List.length_nil] at h
  rw [h]
  rw [Nat.zero_add]

/-- Witness for C5: capacity 1, inserting keys 1 then 2 evicts exactly key 1. -/
theorem lru_insertion_order_law_w :
    (runSetsEv (lruEvictionPolicy Nat Nat) (newLocalCacheLRU Nat Nat 1)
        [(1, 10), (2, 20)]).2
      = (([((1 : Nat), (10 : Nat)), (2, 20)]).map Prod.fst).take
          ([((1 : Nat), (10 : Nat)), (2, 20)].length - (1 : Int).toNat) :=
  lru_insertion_order_law 1 (by decide) [(1, 10), (2, 20)] (by decide)

/-- Claim C3 (counterexample): after the operation sequence
`Add 1; Access 1; Add 2; Evict`, key 1 is still tracked, but the bucket at the
recorded minimum frequency has been discarded and the marker was not advanced:
the claimed invariant fails after `Evict`. -/
theorem lfu_minBucketInv_counterexample :
    lfuCexState.elements ≠ [] ∧
    bucketOf lfuCexState lfuCexState.minFreq = [] ∧
    ¬ minBucketInv lfuCexState := by
  refine ⟨by decide, by decide, ?_⟩
  intro h
  exact h (by decide) (by decide)

/-- Claim C3 (amended): in the LFU policy, the minimum-frequency-bucket
invariant is preserved by `Add` and by `Access` (a fresh `Add` re-establishes
it unconditionally), and whenever the minimum-frequency bucket empties during
a frequency increment the minimum-frequency marker is advanced by one; after
`Evict` (or `Remove`), however, the marker may point at a discarded bucket
while entries remain, until the next `Add` resets it. -/
theorem lfu_minBucketInv_amended {K T : Type} [DecidableEq K]
    (p : lfuPolicy K T) (k : K) (v : T) :
    (minBucketInv p → minBucketInv (p.Add k v) ∧ minBucketInv (p.Access k)) ∧
    (∀ item : lfuItem K T,
      eraseK lfuItem.key (bucketOf p item.frequency) item.key = [] →
      p.minFreq = item.frequency →
      (p.increment item).minFreq = p.minFreq + 1) := by
  refine ⟨fun hmb => ⟨lfu_Add_minBucket hmb, lfu_Access_minBucket hmb⟩, ?_⟩
  intro item hE hmf
  rw [lfu_increment_eq_of_empty hE]
  show (if p.minFreq = item.frequency then p.minFreq + 1 else p.minFreq) = p.minFreq + 1
  rw [if_pos hmf]

/-- Witness for the amended C3 at a concrete one-entry state. -/
theorem lfu_minBucketInv_amended_w :
    minBucketInv (((newLFUPolicy Nat Nat).Add 1 10).Add 2 20) ∧
    (((newLFUPolicy Nat Nat).Add 1 10).increment ⟨1, 10, 1⟩).minFreq
      = ((newLFUPolicy Nat Nat).Add 1 10).minFreq + 1 := by
  have h := lfu_minBucketInv_amended ((newLFUPolicy Nat Nat).Add 1 10) 2 (20 : Nat)
  refine ⟨(h.1 ?_).1, h.2 ⟨1, 10, 1⟩ (by decide) (by decide)⟩
  intro hne
  decide

/-- Claim C6: for an LFU `LocalCache` of capacity 2, after inserting keys 1
and 2, reading key 1 three times and key 2 once, inserting key 3 evicts
exactly key 2. -/
theorem lfu_frequency_law :
    (LocalCache.SetEv (lfuEvictionPolicy Nat Nat) lfuScenario 3 30).2 = some 2 ∧
    lookupA (LocalCache.Set (lfuEvictionPolicy Nat Nat) lfuScenario 3 30).store 2 = none ∧
    (lookupA (LocalCache.Set (lfuEvictionPolicy Nat Nat) lfuScenario 3 30).store 1).isSome
      = true ∧
    (lookupA (LocalCache.Set (lfuEvictionPolicy Nat Nat) lfuScenario 3 30).store 3).isSome
      = true := by
  decide

/-- Claim C4 (counterexample): a fetch that succeeds with bytes failing to
deserialize makes `RedisCache.Get` return the deserialized-so-far value with a
`nil` error — the deserialization error (`42` here) is discarded, not returned
to the caller as the claim states. -/
theorem redisCache_get_unmarshal_counterexample :
    (cexRedisCache.unmarshal 0).2 = some 42 ∧
    cexRedisCache.clientGet (cexRedisCache.keyFunc 1) = Except.ok 0 ∧
    RedisCache.Get cexRedisCache 1 = (7, none) :=
  ⟨rfl, rfl, rfl⟩

/-- Claim C4 (amended): `RedisCache.Get` fails with the distinguished
not-found error when the storage key is absent (any client error, including
`redis.Nil`, is propagated verbatim); but when the fetched bytes fail to
deserialize, the deserialization error is discarded and `Get` returns the
deserialized-so-far value with no error. -/
theorem redisCache_get_amended {K T B E : Type} [Inhabited T]
    (cache : RedisCache K T B E) (id : K) :
    (∀ e, cache.clientGet (cache.keyFunc id) = .error e →
      RedisCache.Get cache id = (default, some e)) ∧
    (∀ b, cache.clientGet (cache.keyFunc id) = .ok b →
      RedisCache.Get cache id = ((cache.unmarshal b).1, none)) := by
  constructor
  · intro e he
    simp only [RedisCache.Get, he]
  · intro b hb
    simp only [RedisCache.Get, hb]

/-- Witness for the amended C4: an absent key yields `redis.Nil`; a present
key with undeserializable bytes yields the partial value and no error. -/
theorem redisCache_get_amended_w :
    RedisCache.Get cexRedisCacheNil 1 = (default, some RedisErr.redisNil) ∧
    RedisCache.Get cexRedisCache 1 = ((cexRedisCache.unmarshal 0).1, none) :=
  ⟨(redisCache_get_amended cexRedisCacheNil 1).1 RedisErr.redisNil rfl,
   (redisCache_get_amended cexRedisCache 1).2 0 rfl⟩

theorem mlc_get_preserves_flag {K T B E : Type} [DecidableEq K]
    (m : MultiLevelCache K T B E) (c : MLCState K T B E) (k : K) :
    (MultiLevelCache.Get m c k).state.redisEnabled = c.redisEnabled := by
  simp only [MultiLevelCache.Get, MultiLevelCache.Set]
  split
  · rfl
  · split
    · rename_i v c' heq
      split at heq
      · split at heq
        · split at heq
          · injection heq with h1
            injection h1 with h2 h3
            rw [← h3]
          · exact Option.noConfusion heq
        · exact Option.noConfusion heq
        · exact Option.noConfusion heq
      · exact Option.noConfusion heq
    · split <;> rfl

/-- Claim C7: the remote-health flag is initialized to `true` at construction,
is written only by the periodic health probe, and the probe only ever sets it
to `true`; hence along every event sequence (public operations and probe
ticks, the probe failing or succeeding) the flag never becomes `false`, and
`isRedisEnabled` returns `true` in every reachable state. -/
theorem mlc_redisEnabled_always_true {K T B E : Type} [DecidableEq K]
    (m : MultiLevelCache K T B E) (localCacheSize : Int)
    (remote : String → RemoteReply B E) (ops : List (MLCOp K T)) :
    (mlcRun m localCacheSize remote ops).isRedisEnabled = true := by
  have hstep : ∀ (c : MLCState K T B E) (op : MLCOp K T), c.redisEnabled = true →
      (mlcStep m c op).redisEnabled = true := by
    intro c op hc
    cases op with
    | get k =>
        show (MultiLevelCache.Get m c k).state.redisEnabled = true
        rw [mlc_get_preserves_flag]
        exact hc
    | set k v => exact hc
    | del k => exact hc
    | probe ok =>
        show (healthProbe c ok).redisEnabled = true
        rw [healthProbe]
        cases ok with
        | true => rfl
        | false => exact hc
  have hrun : ∀ (os : List (MLCOp K T)) (c : MLCState K T B E), c.redisEnabled = true →
      (os.foldl (mlcStep m) c).redisEnabled = true := by
    intro os
    induction os with
    | nil => intro c hc; exact hc
    | cons op rest ih =>
        intro c hc
        exact ih _ (hstep c op hc)
  exact hrun ops _ rfl

/-- Claim C8: when the loader fails during `MultiLevelCache.Get` (local miss
and no usable remote value), the caller receives the loader's error verbatim,
the state is unchanged — neither the local cache nor the remote tier is
written, and no asynchronous remote write is dispatched — and a subsequent
`Get` for the same key invokes the loader again. -/
theorem mlc_loader_error_not_cached {K T B E : Type} [DecidableEq K]
    (m : MultiLevelCache K T B E) (c : MLCState K T B E) (key : K) (e : E)
    (hlocal : lookupA c.localCache.store key = none)
    (hremote : c.redisEnabled = false ∨
      c.remote (m.keyToString key) = RemoteReply.nil ∨
      (∃ e', c.remote (m.keyToString key) = RemoteReply.err e') ∨
      (∃ b, c.remote (m.keyToString key) = RemoteReply.ok b ∧ (m.unmarshal b).2.isSome))
    (hload : m.loadFunc key = .error e) :
    MultiLevelCache.Get m c key =
      { result := .error e, state := c, loaderCalled := true, pending := [] } ∧
    (MultiLevelCache.Get m (MultiLevelCache.Get m c key).state key).loaderCalled = true := by
  have hlocget : LocalCache.Get (lruEvictionPolicy K T) c.localCache key
      = (none, c.localCache) := by
    simp only [LocalCache.Get, hlocal]
  have hmain : MultiLevelCache.Get m c key =
      { result := .error e, state := c, loaderCalled := true, pending := [] } := by
    by_cases hen : c.redisEnabled = true
    · rcases hremote with hoff | hnil | ⟨e', herr⟩ | ⟨b, hok, hum⟩
      · rw [hoff] at hen
        exact absurd hen (by simp)
      · simp only [MultiLevelCache.Get, hlocget, MLCState.isRedisEnabled, hen, if_true,
          hnil, hload]
      · simp only [MultiLevelCache.Get, hlocget, MLCState.isRedisEnabled, hen, if_true,
          herr, hload]
      · obtain ⟨de, hde⟩ := Option.isSome_iff_exists.1 hum
        rcases hub : m.unmarshal b with ⟨pv, oe⟩
        rw [hub] at hde
        simp only at hde
        subst hde
        simp only [MultiLevelCache.Get, hlocget, MLCState.isRedisEnabled, hen, if_true,
          hok, hub, hload]
    · rw [Bool.not_eq_true] at hen
      simp only [MultiLevelCache.Get, hlocget, MLCState.isRedisEnabled, hen,
        Bool.false_eq_true, if_false, hload]
  have hstate : (MultiLevelCache.Get m c key).state = c := by
    rw [hmain]
  refine ⟨hmain, ?_⟩
  rw [hstate, hmain]

/-- Claim C9: `TwoLevelCache.Set` writes the local cache synchronously, leaves
the remote store untouched at the moment it returns (the remote write is only
dispatched asynchronously, never awaited), and returns success for every key
and value. -/
theorem twoLevel_set_spec {K T S B E : Type} [DecidableEq K] (P : EvictionPolicy K T S)
    (remote : RedisCache K T B E) (st : TwoLevelState K T S B) (id : K) (v : T) :
    (TwoLevelCache.Set P remote st id v).err = none ∧
    (TwoLevelCache.Set P remote st id v).state.remoteStore = st.remoteStore ∧
    (TwoLevelCache.Set P remote st id v).state.localCache
      = LocalCache.Set P st.localCache id v ∧
    (TwoLevelCache.Set P remote st id v).pending
      = (remote.keyFunc id, remote.marshal v) :=
  ⟨rfl, rfl, rfl, rfl⟩

/-- Claim C10: on a local miss, when the remote store returns bytes that fail
to deserialize, `MultiLevelCache.Get` does not return the deserialization
error and does not backfill the local cache with the remote value; it falls
through to the deduplicated loader, and the caller observes the loader's
result (its error verbatim with the state unchanged, or its value written back
through `Set`). -/
theorem mlc_deserialize_fallthrough {K T B E : Type} [DecidableEq K]
    (m : MultiLevelCache K T B E) (c : MLCState K T B E) (key : K) (b : B) (de : E)
    (hlocal : lookupA c.localCache.store key = none)
    (hen : c.redisEnabled = true)
    (hok : c.remote (m.keyToString key) = RemoteReply.ok b)
    (hum : (m.unmarshal b).2 = some de) :
    (MultiLevelCache.Get m c key).loaderCalled = true ∧
    (∀ e, m.loadFunc key = .error e →
      MultiLevelCache.Get m c key =
        { result := .error e, state := c, loaderCalled := true, pending := [] }) ∧
    (∀ v, m.loadFunc key = .ok v →
      MultiLevelCache.Get m c key =
        { result := .ok v, state := (MultiLevelCache.Set m c key v).1,
          loaderCalled := true,
          pending := (MultiLevelCache.Set m c key v).2.toList }) := by
  have hlocget : LocalCache.Get (lruEvictionPolicy K T) c.localCache key
      = (none, c.localCache) := by
    simp only [LocalCache.Get, hlocal]
  rcases hub : m.unmarshal b with ⟨pv, oe⟩
  rw [hub] at hum
  simp only at hum
  subst hum
  have hfall : MultiLevelCache.Get m c key =
      (match m.loadFunc key with
       | .error e =>
          { result := .error e, state := c, loaderCalled := true, pending := [] }
       | .ok v =>
          { result := .ok v, state := (MultiLevelCache.Set m c key v).1,
            loaderCalled := true,
            pending := (MultiLevelCache.Set m c key v).2.toList }) := by
    simp only [MultiLevelCache.Get, hlocget, MLCState.isRedisEnabled, hen, if_true,
      hok, hub]
  refine ⟨?_, ?_, ?_⟩
  · cases hlf : m.loadFunc key with
    | error e => rw [hfall, hlf]
    | ok v => rw [hfall, hlf]
  · intro e hlf
    rw [hfall, hlf]
  · intro v hlf
    rw [hfall, hlf]

/-- Witness for C8: with the health flag down, an empty local cache, and a
loader failing with error `5`, `Get` reports error `5`, leaves the state
unchanged, and a repeated call invokes the loader again. -/
theorem mlc_loader_error_not_cached_w :
    MultiLevelCache.Get wMLC wMLCState 1 =
      { result := .error 5, state := wMLCState, loaderCalled := true, pending := [] } ∧
    (MultiLevelCache.Get wMLC (MultiLevelCache.Get wMLC wMLCState 1).state 1).loaderCalled
      = true :=
  mlc_loader_error_not_cached wMLC wMLCState 1 5 rfl (Or.inl rfl) rfl

/-- Witness for C10: remote bytes that fail to deserialize with error `9`; the
loader returns `3`, and the caller observes `3`, not the deserialization
error. -/
theorem mlc_deserialize_fallthrough_w :
    (MultiLevelCache.Get wMLC2 wMLCState2 1).loaderCalled = true ∧
    MultiLevelCache.Get wMLC2 wMLCState2 1 =
      { result := .ok 3, state := (MultiLevelCache.Set wMLC2 wMLCState2 1 3).1,
        loaderCalled := true,
        pending := (MultiLevelCache.Set wMLC2 wMLCState2 1 3).2.toList } :=
  ⟨(mlc_deserialize_fallthrough wMLC2 wMLCState2 1 7 9 rfl rfl rfl rfl).1,
   (mlc_deserialize_fallthrough wMLC2 wMLCState2 1 7 9 rfl rfl rfl rfl).2.2 3 rfl⟩
